import Mathlib

/-!
Verification of the `labdata` assembly pipeline (BibTeX ingestion, LaTeX
normalization, author/project resolution, back-linking, collaborator
aggregation).

Python strings are embedded as `List Char`; Python `None`/exceptions as
`Option`; Python dicts (which preserve insertion order) as association
lists.  Each definition mirrors one function of the source tree
(`labdata/latex.py`, `labdata/resolver.py`, `labdata/parsers/bibtex.py`,
`labdata/assembler.py`, `labdata/models.py`).
-/

namespace PrlBib

/-- Python strings are modelled as lists of characters. -/
abbrev Str := List Char

/-- Backslash character. -/
def bslash : Char := Char.ofNat 92

/-- Apostrophe (single quote) character. -/
def squote : Char := Char.ofNat 39

/-- Double quote character. -/
def dquote : Char := Char.ofNat 34

/-- Backquote (grave) character. -/
def bquote : Char := Char.ofNat 96

/-- Opening curly brace character. -/
def obrace : Char := Char.ofNat 123

/-- Closing curly brace character. -/
def cbrace : Char := Char.ofNat 125

/-- Newline character. -/
def nlChar : Char := Char.ofNat 10

/-- Space character. -/
def spChar : Char := Char.ofNat 32

/-- Models Python `re` whitespace / `str.strip` whitespace on the character
repertoire reachable in this pipeline (ASCII whitespace plus the common
Unicode space code points). -/
def pyIsSpace (c : Char) : Bool :=
  let n := c.toNat
  (9 ≤ n && n ≤ 13) || n == 32 || (28 ≤ n && n ≤ 31) || n == 133 || n == 160 ||
  n == 0x1680 || (0x2000 ≤ n && n ≤ 0x200a) || n == 0x2028 || n == 0x2029 ||
  n == 0x202f || n == 0x205f || n == 0x3000

/-- ASCII lowercase letter test (`[a-z]` in the resolver's regexes). -/
def asciiLower (c : Char) : Bool :=
  97 ≤ c.toNat && c.toNat ≤ 122

/-- ASCII alphabetic test; models Python `str.isalpha` on the ASCII keys of
the LaTeX accent table. -/
def pyIsAlpha (c : Char) : Bool :=
  (65 ≤ c.toNat && c.toNat ≤ 90) || (97 ≤ c.toNat && c.toNat ≤ 122)

/-- Models Python `str.lower` on the character repertoire of this pipeline:
ASCII letters and the Latin-1 / Latin-Extended-A uppercase letters that the
accent table can produce.  Other characters are unchanged. -/
def pyLower (c : Char) : Char :=
  let n := c.toNat
  if 65 ≤ n && n ≤ 90 then Char.ofNat (n + 32)
  else if 0xC0 ≤ n && n ≤ 0xDE && n ≠ 0xD7 then Char.ofNat (n + 32)
  else if n ∈ [0x106, 0x10C, 0x11A, 0x141, 0x143, 0x147, 0x150, 0x152, 0x158,
               0x15A, 0x160, 0x170, 0x179, 0x17B, 0x17D] then Char.ofNat (n + 1)
  else c

/-- Models `unicodedata.normalize('NFD', ·)` followed by dropping combining
marks (category Mn), character by character, on the repertoire the accent
table can produce.  Letters with a canonical decomposition lose their
diacritic; characters without one (ß, æ, œ, ø, ł, ı, ...) are unchanged. -/
def nfdStrip (c : Char) : Char :=
  let n := c.toNat
  -- lowercase Latin-1 with decomposition
  if n ∈ [0xE0, 0xE1, 0xE2, 0xE3, 0xE4, 0xE5] then 'a'
  else if n ∈ [0xE8, 0xE9, 0xEA, 0xEB] then 'e'
  else if n ∈ [0xEC, 0xED, 0xEE, 0xEF] then 'i'
  else if n ∈ [0xF2, 0xF3, 0xF4, 0xF5, 0xF6] then 'o'
  else if n ∈ [0xF9, 0xFA, 0xFB, 0xFC] then 'u'
  else if n ∈ [0xFD, 0xFF] then 'y'
  else if n == 0xE7 then 'c'
  else if n == 0xF1 then 'n'
  -- uppercase Latin-1 with decomposition
  else if n ∈ [0xC0, 0xC1, 0xC2, 0xC3, 0xC4, 0xC5] then 'A'
  else if n ∈ [0xC8, 0xC9, 0xCA, 0xCB] then 'E'
  else if n ∈ [0xCC, 0xCD, 0xCE, 0xCF] then 'I'
  else if n ∈ [0xD2, 0xD3, 0xD4, 0xD5, 0xD6] then 'O'
  else if n ∈ [0xD9, 0xDA, 0xDB, 0xDC] then 'U'
  else if n == 0xDD then 'Y'
  else if n == 0xC7 then 'C'
  else if n == 0xD1 then 'N'
  -- Latin Extended-A pairs used by the accent table
  else if n ∈ [0x107, 0x10D] then 'c' else if n ∈ [0x106, 0x10C] then 'C'
  else if n == 0x11B then 'e' else if n == 0x11A then 'E'
  else if n ∈ [0x144, 0x148] then 'n' else if n ∈ [0x143, 0x147] then 'N'
  else if n ∈ [0x151, 0x14D] then 'o' else if n == 0x150 then 'O'
  else if n == 0x159 then 'r' else if n == 0x158 then 'R'
  else if n ∈ [0x15B, 0x161] then 's' else if n ∈ [0x15A, 0x160] then 'S'
  else if n == 0x171 then 'u' else if n == 0x170 then 'U'
  else if n ∈ [0x17A, 0x17C, 0x17E] then 'z'
  else if n ∈ [0x179, 0x17B, 0x17D] then 'Z'
  else c

/-- Strip leading whitespace (`str.strip`, left side). -/
def stripLeft (l : Str) : Str := l.dropWhile pyIsSpace

/-- Models Python `str.strip()`. -/
def stripWs (l : Str) : Str :=
  ((l.dropWhile pyIsSpace).reverse.dropWhile pyIsSpace).reverse

/-- Helper for `collapseWs`: the flag records whether the previous character
was whitespace (so a whitespace run emits a single space). -/
def collapseWsAux : Bool → Str → Str
  | _, [] => []
  | prevSp, c :: rest =>
    if pyIsSpace c then
      (if prevSp then [] else [spChar]) ++ collapseWsAux true rest
    else c :: collapseWsAux false rest

/-- Models `re.sub(r'\s+', ' ', ·)`. -/
def collapseWs (l : Str) : Str := collapseWsAux false l

/-- Lexicographic comparison of Python strings by code point (`<` on `str`),
strict version. -/
def strLt : Str → Str → Bool
  | [], [] => false
  | [], _ :: _ => true
  | _ :: _, [] => false
  | c :: cs, d :: ds =>
    if c.toNat < d.toNat then true
    else if d.toNat < c.toNat then false
    else strLt cs ds

/-- Lexicographic `≤` on Python strings. -/
def strLe (a b : Str) : Bool := !strLt b a

section StableSort

variable {α : Type} (le : α → α → Bool)

/-- Insert `x` into `l`, after every element `y` with `le y x` (so elements
comparing equal to `x` stay before it: this matches the stability contract
of Python `sorted` / `list.sort`). -/
def insertS (x : α) : List α → List α
  | [] => [x]
  | y :: ys => if le y x then y :: insertS x ys else x :: y :: ys

/-- Stable sort by the boolean total preorder `le`.  Python's `sorted` and
`list.sort` are stable sorts, and a stable sort by a total preorder has a
unique output, so this insertion sort is a faithful model of them. -/
def pySorted (l : List α) : List α := l.foldl (fun acc x => insertS le x acc) []

theorem insertS_perm (x : α) (l : List α) : List.Perm (insertS le x l) (x :: l) := by
  induction l with
  | nil => exact List.Perm.refl _
  | cons y ys ih =>
    unfold insertS
    cases h : le y x with
    | true =>
      simp only [if_true]
      exact (ih.cons y).trans (List.Perm.swap x y ys)
    | false =>
      simp only [Bool.false_eq_true, if_false]
      exact List.Perm.refl _

theorem mem_insertS {x z : α} {l : List α} :
    z ∈ insertS le x l ↔ z = x ∨ z ∈ l := by
  rw [(insertS_perm le x l).mem_iff, List.mem_cons]

theorem pySorted_perm (l : List α) : List.Perm (pySorted le l) l := by
  suffices h : ∀ acc : List α,
      List.Perm (l.foldl (fun acc x => insertS le x acc) acc) (acc ++ l) by
    simpa using h []
  induction l with
  | nil => intro acc; simp
  | cons x xs ih =>
    intro acc
    have step : (x :: xs).foldl (fun acc x => insertS le x acc) acc
        = xs.foldl (fun acc x => insertS le x acc) (insertS le x acc) := rfl
    rw [step]
    refine (ih _).trans ?_
    refine (List.Perm.append_right xs (insertS_perm le x acc)).trans ?_
    exact List.perm_middle.symm

theorem insertS_sorted (htrans : ∀ a b c, le a b → le b c → le a c)
    (htot : ∀ a b, le a b ∨ le b a) (x : α) {l : List α}
    (hl : l.Pairwise (fun a b => le a b = true)) :
    (insertS le x l).Pairwise (fun a b => le a b = true) := by
  induction l with
  | nil => simp [insertS]
  | cons y ys ih =>
    rw [List.pairwise_cons] at hl
    unfold insertS
    cases h : le y x with
    | true =>
      simp only [if_true, List.pairwise_cons]
      refine ⟨?_, ih hl.2⟩
      intro z hz
      rcases (mem_insertS le).mp hz with hz | hz
      · subst hz; exact h
      · exact hl.1 z hz
    | false =>
      simp only [Bool.false_eq_true, if_false, List.pairwise_cons]
      have hxy : le x y = true := by
        rcases htot x y with h' | h'
        · exact h'
        · rw [h'] at h; exact absurd h (by simp)
      refine ⟨?_, hl⟩
      intro z hz
      rcases List.mem_cons.mp hz with hz | hz
      · subst hz; exact hxy
      · exact htrans x y z hxy (hl.1 z hz)

theorem pySorted_sorted (htrans : ∀ a b c, le a b → le b c → le a c)
    (htot : ∀ a b, le a b ∨ le b a) (l : List α) :
    (pySorted le l).Pairwise (fun a b => le a b = true) := by
  suffices h : ∀ acc : List α, acc.Pairwise (fun a b => le a b = true) →
      (l.foldl (fun acc x => insertS le x acc) acc).Pairwise (fun a b => le a b = true) by
    exact h [] (by simp)
  induction l with
  | nil => intro acc hacc; exact hacc
  | cons x xs ih =>
    intro acc hacc
    exact ih _ (insertS_sorted le htrans htot x hacc)

theorem filter_insertS (p : α → Bool)
    (htrans : ∀ a b c, le a b → le b c → le a c)
    (hp : ∀ a b, p a → p b → le a b) (x : α) {l : List α}
    (hl : l.Pairwise (fun a b => le a b = true)) :
    (insertS le x l).filter p =
      if p x then l.filter p ++ [x] else l.filter p := by
  induction l with
  | nil => by_cases hx : p x = true <;> simp [insertS, hx]
  | cons y ys ih =>
    rw [List.pairwise_cons] at hl
    unfold insertS
    cases h : le y x with
    | true =>
      simp only [if_true, List.filter_cons, ih hl.2]
      by_cases hy : p y = true
      · by_cases hx : p x = true <;> simp [hy, hx]
      · by_cases hx : p x = true <;> simp [hy, hx]
    | false =>
      simp only [Bool.false_eq_true, if_false, List.filter_cons]
      by_cases hx : p x = true
      · -- `x` lands up front; no element of `y :: ys` can satisfy `p`,
        -- else `le y x` would follow by `hp`/transitivity.
        have hnone : ∀ z ∈ y :: ys, p z = false := by
          intro z hz
          rcases List.mem_cons.mp hz with hz | hz
          · subst hz
            cases hzp : p z with
            | true => rw [hp z x hzp hx] at h; exact absurd h (by simp)
            | false => rfl
          · cases hzp : p z with
            | true =>
              have hyz : le y z = true := hl.1 z hz
              have hzx : le z x = true := hp z x hzp hx
              rw [htrans y z x hyz hzx] at h
              exact absurd h (by simp)
            | false => rfl
        have hfil : (y :: ys).filter p = [] := by
          apply List.filter_eq_nil_iff.mpr
          intro z hz
          simp [hnone z hz]
        rw [List.filter_cons] at hfil
        simp only [List.filter_cons, hx, if_true]
        rw [hfil]
        rfl
      · simp only [hx, Bool.false_eq_true, if_false, List.filter_cons]

theorem pySorted_filter (p : α → Bool)
    (htrans : ∀ a b c, le a b → le b c → le a c)
    (hp : ∀ a b, p a → p b → le a b)
    (htot : ∀ a b, le a b ∨ le b a) (l : List α) :
    (pySorted le l).filter p = l.filter p := by
  suffices h : ∀ acc : List α, acc.Pairwise (fun a b => le a b = true) →
      (l.foldl (fun acc x => insertS le x acc) acc).filter p =
        acc.filter p ++ l.filter p by
    simpa using h [] (by simp)
  induction l with
  | nil => intro acc hacc; simp
  | cons x xs ih =>
    intro acc hacc
    have step : (x :: xs).foldl (fun acc x => insertS le x acc) acc
        = xs.foldl (fun acc x => insertS le x acc) (insertS le x acc) := rfl
    rw [step, ih _ (insertS_sorted le htrans htot x hacc),
      filter_insertS le p htrans hp x hacc, List.filter_cons]
    by_cases hx : p x = true <;> simp [hx]

end StableSort

/-- `hasPrefixS l pat` : does `l` start with `pat`? -/
def hasPrefixS : Str → Str → Bool
  | _, [] => true
  | [], _ :: _ => false
  | c :: cs, p :: ps => c == p && hasPrefixS cs ps

/-- Fuelled worker for `replaceAll`; the fuel only bounds the recursion
depth and is irrelevant as soon as it is at least the string length
(`replaceAllF_fuel`). -/
def replaceAllF (pat : Str) (rep : Char) : Nat → Str → Str
  | _, [] => []
  | 0, l => l
  | n + 1, c :: cs =>
    if hasPrefixS (c :: cs) pat then
      rep :: replaceAllF pat rep n ((c :: cs).drop pat.length)
    else
      c :: replaceAllF pat rep n cs

/-- Models Python `str.replace(pat, rep)` for a single-character replacement
`rep`: replaces every occurrence of `pat`, scanning left to right without
overlap. -/
def replaceAll (pat : Str) (rep : Char) (l : Str) : Str :=
  replaceAllF pat rep l.length l

theorem replaceAllF_fuel (pat : Str) (rep : Char) (hpat : pat ≠ []) :
    ∀ (n m : Nat) (l : Str), l.length ≤ n → l.length ≤ m →
      replaceAllF pat rep n l = replaceAllF pat rep m l := by
  intro n
  induction n with
  | zero =>
    intro m l hn _
    cases l with
    | nil => cases m <;> rfl
    | cons c cs => simp at hn
  | succ n ih =>
    intro m l hn hm
    cases l with
    | nil => cases m <;> rfl
    | cons c cs =>
      cases m with
      | zero => simp at hm
      | succ m =>
        simp only [replaceAllF]
        cases h : hasPrefixS (c :: cs) pat with
        | true =>
          simp only [if_true]
          have hlen : ((c :: cs).drop pat.length).length ≤ cs.length := by
            cases pat with
            | nil => exact absurd rfl hpat
            | cons p ps =>
              simp only [List.length_drop, List.length_cons]
              omega
          have h1 : ((c :: cs).drop pat.length).length ≤ n := by
            simp only [List.length_cons] at hn; omega
          have h2 : ((c :: cs).drop pat.length).length ≤ m := by
            simp only [List.length_cons] at hm; omega
          rw [ih m _ h1 h2]
        | false =>
          simp only [Bool.false_eq_true, if_false]
          have h1 : cs.length ≤ n := by simp only [List.length_cons] at hn; omega
          have h2 : cs.length ≤ m := by simp only [List.length_cons] at hm; omega
          rw [ih m _ h1 h2]

theorem replaceAll_nil (pat : Str) (rep : Char) : replaceAll pat rep [] = [] := rfl

/-- The natural unfolding of `replaceAll` on a nonempty string. -/
theorem replaceAll_cons (pat : Str) (rep : Char) (hpat : pat ≠ []) (c : Char) (cs : Str) :
    replaceAll pat rep (c :: cs) =
      if hasPrefixS (c :: cs) pat then
        rep :: replaceAll pat rep ((c :: cs).drop pat.length)
      else
        c :: replaceAll pat rep cs := by
  show replaceAllF pat rep (cs.length + 1) (c :: cs) = _
  simp only [replaceAllF]
  cases h : hasPrefixS (c :: cs) pat with
  | true =>
    simp only [if_true]
    have hlen : ((c :: cs).drop pat.length).length ≤ cs.length := by
      cases pat with
      | nil => exact absurd rfl hpat
      | cons p ps => simp only [List.length_drop, List.length_cons]; omega
    rw [replaceAllF_fuel pat rep hpat cs.length ((c :: cs).drop pat.length).length _ hlen le_rfl]
    rfl
  | false =>
    simp only [Bool.false_eq_true, if_false]
    rfl

/-- The LaTeX accent table of `labdata/latex.py` (`LATEX_ACCENTS`), in its
Python insertion order.  Keys are the LaTeX commands, values the Unicode
replacement characters. -/
def LATEX_ACCENTS : List (Str × Char) := [
  -- Acute accent
  ([bslash, squote, 'a'], 'á'), ([bslash, squote, 'A'], 'Á'),
  ([bslash, squote, 'e'], 'é'), ([bslash, squote, 'E'], 'É'),
  ([bslash, squote, 'i'], 'í'), ([bslash, squote, 'I'], 'Í'),
  ([bslash, squote, 'o'], 'ó'), ([bslash, squote, 'O'], 'Ó'),
  ([bslash, squote, 'u'], 'ú'), ([bslash, squote, 'U'], 'Ú'),
  ([bslash, squote, 'c'], 'ć'), ([bslash, squote, 'C'], 'Ć'),
  ([bslash, squote, 'n'], 'ń'), ([bslash, squote, 'N'], 'Ń'),
  ([bslash, squote, 's'], 'ś'), ([bslash, squote, 'S'], 'Ś'),
  ([bslash, squote, 'z'], 'ź'), ([bslash, squote, 'Z'], 'Ź'),
  ([bslash, squote, 'y'], 'ý'), ([bslash, squote, 'Y'], 'Ý'),
  -- Grave accent
  ([bslash, bquote, 'a'], 'à'), ([bslash, bquote, 'A'], 'À'),
  ([bslash, bquote, 'e'], 'è'), ([bslash, bquote, 'E'], 'È'),
  ([bslash, bquote, 'i'], 'ì'), ([bslash, bquote, 'I'], 'Ì'),
  ([bslash, bquote, 'o'], 'ò'), ([bslash, bquote, 'O'], 'Ò'),
  ([bslash, bquote, 'u'], 'ù'), ([bslash, bquote, 'U'], 'Ù'),
  -- Umlaut / diaeresis
  ([bslash, dquote, 'a'], 'ä'), ([bslash, dquote, 'A'], 'Ä'),
  ([bslash, dquote, 'e'], 'ë'), ([bslash, dquote, 'E'], 'Ë'),
  ([bslash, dquote, 'i'], 'ï'), ([bslash, dquote, 'I'], 'Ï'),
  ([bslash, dquote, 'o'], 'ö'), ([bslash, dquote, 'O'], 'Ö'),
  ([bslash, dquote, 'u'], 'ü'), ([bslash, dquote, 'U'], 'Ü'),
  ([bslash, dquote, 'y'], 'ÿ'),
  -- Circumflex
  ([bslash, '^', 'a'], 'â'), ([bslash, '^', 'A'], 'Â'),
  ([bslash, '^', 'e'], 'ê'), ([bslash, '^', 'E'], 'Ê'),
  ([bslash, '^', 'i'], 'î'), ([bslash, '^', 'I'], 'Î'),
  ([bslash, '^', 'o'], 'ô'), ([bslash, '^', 'O'], 'Ô'),
  ([bslash, '^', 'u'], 'û'), ([bslash, '^', 'U'], 'Û'),
  -- Tilde
  ([bslash, '~', 'a'], 'ã'), ([bslash, '~', 'A'], 'Ã'),
  ([bslash, '~', 'n'], 'ñ'), ([bslash, '~', 'N'], 'Ñ'),
  ([bslash, '~', 'o'], 'õ'), ([bslash, '~', 'O'], 'Õ'),
  -- Cedilla
  ([bslash, 'c', obrace, 'c', cbrace], 'ç'), ([bslash, 'c', obrace, 'C', cbrace], 'Ç'),
  ([bslash, 'c', spChar, 'c'], 'ç'), ([bslash, 'c', spChar, 'C'], 'Ç'),
  -- Ring
  ([bslash, 'r', obrace, 'a', cbrace], 'å'), ([bslash, 'r', obrace, 'A', cbrace], 'Å'),
  -- Stroke
  ([bslash, 'l'], 'ł'), ([bslash, 'L'], 'Ł'),
  ([bslash, 'o'], 'ø'), ([bslash, 'O'], 'Ø'),
  -- Caron
  ([bslash, 'v', obrace, 'c', cbrace], 'č'), ([bslash, 'v', obrace, 'C', cbrace], 'Č'),
  ([bslash, 'v', obrace, 's', cbrace], 'š'), ([bslash, 'v', obrace, 'S', cbrace], 'Š'),
  ([bslash, 'v', obrace, 'z', cbrace], 'ž'), ([bslash, 'v', obrace, 'Z', cbrace], 'Ž'),
  ([bslash, 'v', obrace, 'r', cbrace], 'ř'), ([bslash, 'v', obrace, 'R', cbrace], 'Ř'),
  ([bslash, 'v', obrace, 'n', cbrace], 'ň'), ([bslash, 'v', obrace, 'N', cbrace], 'Ň'),
  ([bslash, 'v', obrace, 'e', cbrace], 'ě'), ([bslash, 'v', obrace, 'E', cbrace], 'Ě'),
  -- Dot above
  ([bslash, '.', 'z'], 'ż'), ([bslash, '.', 'Z'], 'Ż'),
  -- Hungarian umlaut
  ([bslash, 'H', obrace, 'o', cbrace], 'ő'), ([bslash, 'H', obrace, 'O', cbrace], 'Ő'),
  ([bslash, 'H', obrace, 'u', cbrace], 'ű'), ([bslash, 'H', obrace, 'U', cbrace], 'Ű'),
  -- Special characters
  ([bslash, 's', 's'], 'ß'),
  ([bslash, 'a', 'e'], 'æ'), ([bslash, 'A', 'E'], 'Æ'),
  ([bslash, 'o', 'e'], 'œ'), ([bslash, 'O', 'E'], 'Œ'),
  ([bslash, 'a', 'a'], 'å'), ([bslash, 'A', 'A'], 'Å'),
  ([bslash, 'i'], 'ı')]

/-- The replacement operations performed by `replace_latex_accents`, in
execution order.  For each table entry `(latex, uni)` the source performs,
in order: `text.replace("{"+latex+"}", uni)`; if `len(latex) >= 2` and the
last key character is alphabetic, `text.replace(latex[:-1]+"{"+latex[-1]+"}",
uni)`; and `text.replace(latex, uni)`. -/
def mkOps : List (Str × Char) → List (Str × Char)
  | [] => []
  | (latex, uni) :: rest =>
    let wholeBraced : Str × Char := ((obrace :: latex) ++ [cbrace], uni)
    let charBraced : List (Str × Char) :=
      match latex.getLast? with
      | some c =>
        if 2 ≤ latex.length && pyIsAlpha c then
          [(latex.dropLast ++ [obrace, c, cbrace], uni)]
        else []
      | none => []
    wholeBraced :: (charBraced ++ ((latex, uni) :: mkOps rest))

/-- All replacement operations of `replace_latex_accents`, in order. -/
def accentOps : List (Str × Char) := mkOps LATEX_ACCENTS

/-- Apply a list of replacement operations from left to right (the `for`
loop of `replace_latex_accents`). -/
def applyOps (ops : List (Str × Char)) (l : Str) : Str :=
  ops.foldl (fun t op => replaceAll op.1 op.2 t) l

/-- Models `replace_latex_accents` (`labdata/latex.py`).  Non-string input
pass-through is irrelevant in a typed embedding. -/
def replaceLatexAccents (l : Str) : Str := applyOps accentOps l

/-- ASCII character test (code point below 128).  Every accent-table key is
pure ASCII while every replacement character is non-ASCII, which is what
makes the substitution pass idempotent. -/
def asciiC (c : Char) : Bool := c.toNat < 128

/-- `pat` occurs as a contiguous substring of `l`. -/
def Occurs (pat l : Str) : Prop := ∃ a b, l = a ++ pat ++ b

theorem hasPrefixS_iff {l pat : Str} : hasPrefixS l pat = true ↔ ∃ b, l = pat ++ b := by
  induction pat generalizing l with
  | nil => simp [hasPrefixS]
  | cons p ps ih =>
    cases l with
    | nil => simp [hasPrefixS]
    | cons c cs =>
      simp only [hasPrefixS, Bool.and_eq_true, beq_iff_eq, ih, List.cons_append,
        List.cons.injEq]
      constructor
      · rintro ⟨rfl, b, rfl⟩; exact ⟨b, rfl, rfl⟩
      · rintro ⟨b, rfl, rfl⟩; exact ⟨rfl, b, rfl⟩

theorem hasPrefixS_nil (l : Str) : hasPrefixS l [] = true := by
  cases l <;> rfl

theorem occurs_cons {pat : Str} {c : Char} {cs : Str} :
    Occurs pat (c :: cs) ↔ hasPrefixS (c :: cs) pat = true ∨ Occurs pat cs := by
  constructor
  · rintro ⟨a, b, hab⟩
    cases a with
    | nil =>
      left
      exact hasPrefixS_iff.mpr ⟨b, by simpa using hab⟩
    | cons a0 a' =>
      right
      rw [List.cons_append, List.cons_append] at hab
      exact ⟨a', b, (List.cons.injEq _ _ _ _).mp hab |>.2⟩
  · rintro (h | ⟨a, b, hab⟩)
    · obtain ⟨b, hb⟩ := hasPrefixS_iff.mp h
      exact ⟨[], b, by simpa using hb⟩
    · exact ⟨c :: a, b, by simp [hab]⟩

theorem not_occurs_nonempty {pat : Str} (h : ¬ Occurs pat []) : pat ≠ [] := by
  intro hpat
  exact h ⟨[], [], by simp [hpat]⟩

/-- If `pat` does not occur in `l`, the replacement is the identity. -/
theorem replaceAll_of_not_occurs {pat : Str} (rep : Char) :
    ∀ l : Str, ¬ Occurs pat l → replaceAll pat rep l = l := by
  intro l
  induction l with
  | nil => intro _; rfl
  | cons c cs ih =>
    intro h
    have hpat : pat ≠ [] := by
      intro hp
      exact h ⟨[], c :: cs, by simp [hp]⟩
    rw [replaceAll_cons pat rep hpat]
    have hnp : hasPrefixS (c :: cs) pat = false := by
      cases hp : hasPrefixS (c :: cs) pat with
      | true => exact absurd (occurs_cons.mpr (Or.inl hp)) h
      | false => rfl
    rw [hnp]
    simp only [Bool.false_eq_true, if_false, List.cons.injEq, true_and]
    exact ih (fun hocc => h (occurs_cons.mpr (Or.inr hocc)))

/-- An all-ASCII prefix of a replaced string was already a prefix of the
original (the inserted non-ASCII characters cannot take part in it). -/
theorem hasPrefixS_replaceAll {pat : Str} {rep : Char}
    (hpat : pat ≠ []) (hrep : asciiC rep = false) :
    ∀ (l q : Str), q ≠ [] → (∀ c ∈ q, asciiC c = true) →
      hasPrefixS (replaceAll pat rep l) q = true → hasPrefixS l q = true := by
  intro l
  induction l with
  | nil =>
    intro q hq _ h
    rw [replaceAll_nil] at h
    cases q with
    | nil => exact absurd rfl hq
    | cons q0 q' => simp [hasPrefixS] at h
  | cons c cs ih =>
    intro q hq hqa
    rw [replaceAll_cons pat rep hpat]
    cases hm : hasPrefixS (c :: cs) pat with
    | true =>
      simp only [if_true]
      intro h
      cases q with
      | nil => exact absurd rfl hq
      | cons q0 q' =>
        simp only [hasPrefixS, Bool.and_eq_true, beq_iff_eq] at h
        have ha : asciiC q0 = true := hqa q0 (by simp)
        rw [← h.1] at ha
        rw [ha] at hrep
        exact absurd hrep (by simp)
    | false =>
      simp only [Bool.false_eq_true, if_false]
      intro h
      cases q with
      | nil => exact absurd rfl hq
      | cons q0 q' =>
        simp only [hasPrefixS, Bool.and_eq_true, beq_iff_eq] at h ⊢
        refine ⟨h.1, ?_⟩
        cases q' with
        | nil => exact hasPrefixS_nil cs
        | cons q1 q'' =>
          have hq' : (q1 :: q'') ≠ ([] : Str) := by simp
          have hqa' : ∀ c ∈ (q1 :: q''), asciiC c = true := by
            intro x hx
            exact hqa x (List.mem_cons_of_mem _ hx)
          exact ih (q1 :: q'') hq' hqa' h.2

/-- Every all-ASCII occurrence in a replaced string lifts back to an
occurrence in the original string. -/
theorem occurs_replaceAll {pat : Str} {rep : Char}
    (hpat : pat ≠ []) (hrep : asciiC rep = false)
    (q : Str) (hq : q ≠ []) (hqa : ∀ c ∈ q, asciiC c = true) :
    ∀ l : Str, Occurs q (replaceAll pat rep l) → Occurs q l
  | [] => by
    intro h
    rw [replaceAll_nil] at h
    obtain ⟨a, b, hab⟩ := h
    cases q with
    | nil => exact absurd rfl hq
    | cons q0 q' => simp at hab
  | c :: cs => by
    rw [replaceAll_cons pat rep hpat]
    cases hm : hasPrefixS (c :: cs) pat with
    | true =>
      simp only [if_true]
      intro h
      obtain ⟨a, b, hab⟩ := h
      cases a with
      | nil =>
        cases q with
        | nil => exact absurd rfl hq
        | cons q0 q' =>
          simp only [List.nil_append, List.cons_append, List.cons.injEq] at hab
          have ha : asciiC q0 = true := hqa q0 (by simp)
          rw [← hab.1] at ha
          rw [ha] at hrep
          exact absurd hrep (by simp)
      | cons a0 a' =>
        simp only [List.cons_append, List.cons.injEq] at hab
        have hrec : Occurs q (replaceAll pat rep ((c :: cs).drop pat.length)) :=
          ⟨a', b, hab.2⟩
        have hocc : Occurs q ((c :: cs).drop pat.length) :=
          occurs_replaceAll hpat hrep q hq hqa _ hrec
        obtain ⟨x, y, hxy⟩ := hocc
        obtain ⟨rest, hrest⟩ := hasPrefixS_iff.mp hm
        have hdrop : (c :: cs).drop pat.length = rest := by
          rw [hrest, List.drop_left]
        refine ⟨pat ++ x, y, ?_⟩
        rw [hrest]
        rw [hdrop] at hxy
        rw [hxy]
        simp
    | false =>
      simp only [Bool.false_eq_true, if_false]
      intro h
      obtain ⟨a, b, hab⟩ := h
      cases a with
      | nil =>
        cases q with
        | nil => exact absurd rfl hq
        | cons q0 q' =>
          simp only [List.nil_append, List.cons_append, List.cons.injEq] at hab
          cases q' with
          | nil => exact ⟨[], cs, by simp [hab.1]⟩
          | cons q1 q'' =>
            have hpfx : hasPrefixS (replaceAll pat rep cs) (q1 :: q'') = true :=
              hasPrefixS_iff.mpr ⟨b, hab.2⟩
            have hcs : hasPrefixS cs (q1 :: q'') = true :=
              hasPrefixS_replaceAll hpat hrep cs (q1 :: q'')
                (by simp) (fun x hx => hqa x (List.mem_cons_of_mem _ hx)) hpfx
            obtain ⟨rest, hrest⟩ := hasPrefixS_iff.mp hcs
            exact ⟨[], rest, by simp [hab.1, hrest]⟩
      | cons a0 a' =>
        simp only [List.cons_append, List.cons.injEq] at hab
        have hocc : Occurs q cs :=
          occurs_replaceAll hpat hrep q hq hqa cs ⟨a', b, hab.2⟩
        obtain ⟨x, y, hxy⟩ := hocc
        exact ⟨c :: x, y, by simp [hxy]⟩
  termination_by l => l.length
  decreasing_by
    all_goals simp_wf
    all_goals cases pat with
    | nil => exact absurd rfl hpat
    | cons p ps =>
      simp only [List.length_drop, List.length_cons]
      omega

/-- After replacing an all-ASCII pattern by a non-ASCII character, the
pattern no longer occurs. -/
theorem not_occurs_replaceAll {pat : Str} {rep : Char}
    (hpat : pat ≠ []) (hpa : ∀ c ∈ pat, asciiC c = true) (hrep : asciiC rep = false) :
    ∀ l : Str, ¬ Occurs pat (replaceAll pat rep l)
  | [] => by
    rw [replaceAll_nil]
    rintro ⟨a, b, hab⟩
    cases pat with
    | nil => exact absurd rfl hpat
    | cons p ps => simp at hab
  | c :: cs => by
    rw [replaceAll_cons pat rep hpat]
    cases hm : hasPrefixS (c :: cs) pat with
    | true =>
      simp only [if_true]
      rintro ⟨a, b, hab⟩
      cases a with
      | nil =>
        cases pat with
        | nil => exact absurd rfl hpat
        | cons p ps =>
          simp only [List.nil_append, List.cons_append, List.cons.injEq] at hab
          have ha : asciiC p = true := hpa p (by simp)
          rw [← hab.1] at ha
          rw [ha] at hrep
          exact absurd hrep (by simp)
      | cons a0 a' =>
        simp only [List.cons_append, List.cons.injEq] at hab
        exact not_occurs_replaceAll hpat hpa hrep ((c :: cs).drop pat.length)
          ⟨a', b, hab.2⟩
    | false =>
      simp only [Bool.false_eq_true, if_false]
      rintro ⟨a, b, hab⟩
      cases a with
      | nil =>
        -- `pat` would be a prefix of the replaced tail, hence of `c :: cs`.
        have hpfx : hasPrefixS (c :: replaceAll pat rep cs) pat = true :=
          hasPrefixS_iff.mpr ⟨b, by simpa using hab⟩
        cases pat with
        | nil => exact absurd rfl hpat
        | cons p ps =>
          simp only [hasPrefixS, Bool.and_eq_true, beq_iff_eq] at hpfx
          cases ps with
          | nil =>
            have hone : hasPrefixS (c :: cs) [p] = true := by
              simp only [hasPrefixS, hasPrefixS_nil, Bool.and_true, beq_iff_eq]
              exact hpfx.1
            rw [hone] at hm
            exact absurd hm (by simp)
          | cons p1 ps' =>
            have hcs : hasPrefixS cs (p1 :: ps') = true :=
              hasPrefixS_replaceAll hpat hrep cs (p1 :: ps') (by simp)
                (fun x hx => hpa x (List.mem_cons_of_mem _ hx)) hpfx.2
            have : hasPrefixS (c :: cs) (p :: p1 :: ps') = true := by
              simp only [hasPrefixS, Bool.and_eq_true, beq_iff_eq]
              exact ⟨hpfx.1.symm ▸ rfl, hcs⟩
            rw [this] at hm
            exact absurd hm (by simp)
      | cons a0 a' =>
        simp only [List.cons_append, List.cons.injEq] at hab
        exact not_occurs_replaceAll hpat hpa hrep cs ⟨a', b, hab.2⟩
  termination_by l => l.length
  decreasing_by
    all_goals simp_wf
    all_goals cases pat with
    | nil => exact absurd rfl hpat
    | cons p ps =>
      simp only [List.length_drop, List.length_cons]
      omega

/-- Well-formedness of one replacement operation: nonempty all-ASCII
pattern, non-ASCII replacement character. -/
def opWFb (op : Str × Char) : Bool :=
  !op.1.isEmpty && op.1.all asciiC && !asciiC op.2

theorem occurs_applyOps {q : Str} (hq : q ≠ []) (hqa : ∀ c ∈ q, asciiC c = true) :
    ∀ (ops : List (Str × Char)) (l : Str), ops.all opWFb = true →
      Occurs q (applyOps ops l) → Occurs q l := by
  intro ops
  induction ops with
  | nil => intro l _ h; exact h
  | cons op rest ih =>
    intro l hwf h
    simp only [List.all_cons, Bool.and_eq_true] at hwf
    have hop := hwf.1
    simp only [opWFb, Bool.and_eq_true, Bool.not_eq_eq_eq_not, Bool.not_true] at hop
    have hpat : op.1 ≠ [] := by
      cases hp : op.1 with
      | nil => rw [hp] at hop; simp at hop
      | cons x xs => simp
    have hrep : asciiC op.2 = false := by
      have := hop.2
      simpa using this
    have step : applyOps (op :: rest) l = applyOps rest (replaceAll op.1 op.2 l) := rfl
    rw [step] at h
    have h2 : Occurs q (replaceAll op.1 op.2 l) := ih _ hwf.2 h
    exact occurs_replaceAll hpat hrep q hq hqa l h2

theorem not_occurs_applyOps_self :
    ∀ (ops : List (Str × Char)) (l : Str), ops.all opWFb = true →
      ∀ op ∈ ops, ¬ Occurs op.1 (applyOps ops l) := by
  intro ops
  induction ops with
  | nil => intro l _ op hop; simp at hop
  | cons op0 rest ih =>
    intro l hwf op hop
    simp only [List.all_cons, Bool.and_eq_true] at hwf
    have hop0 := hwf.1
    simp only [opWFb, Bool.and_eq_true, Bool.not_eq_eq_eq_not, Bool.not_true] at hop0
    have hpat : op0.1 ≠ [] := by
      cases hp : op0.1 with
      | nil => rw [hp] at hop0; simp at hop0
      | cons x xs => simp
    have hpa : ∀ c ∈ op0.1, asciiC c = true := by
      have := hop0.1.2
      intro c hc
      exact List.all_eq_true.mp this c hc
    have hrep : asciiC op0.2 = false := by simpa using hop0.2
    have step : applyOps (op0 :: rest) l = applyOps rest (replaceAll op0.1 op0.2 l) := rfl
    rw [step]
    rcases List.mem_cons.mp hop with rfl | hmem
    · -- the head operation: no occurrence right after it, preserved by the rest
      intro hocc
      exact not_occurs_replaceAll hpat hpa hrep l
        (occurs_applyOps hpat
          (by intro c hc; exact hpa c hc) rest _ hwf.2 hocc)
    · exact ih _ hwf.2 op hmem

theorem applyOps_of_no_occurs :
    ∀ (ops : List (Str × Char)) (l : Str), ops.all opWFb = true →
      (∀ op ∈ ops, ¬ Occurs op.1 l) → applyOps ops l = l := by
  intro ops
  induction ops with
  | nil => intro l _ _; rfl
  | cons op rest ih =>
    intro l hwf hno
    simp only [List.all_cons, Bool.and_eq_true] at hwf
    have step : applyOps (op :: rest) l = applyOps rest (replaceAll op.1 op.2 l) := rfl
    rw [step, replaceAll_of_not_occurs op.2 l (hno op (by simp))]
    exact ih l hwf.2 (fun op' hop' => hno op' (List.mem_cons_of_mem _ hop'))

/-- For well-formed operation lists, the whole substitution pass is
idempotent. -/
theorem applyOps_idem (ops : List (Str × Char)) (hwf : ops.all opWFb = true) (l : Str) :
    applyOps ops (applyOps ops l) = applyOps ops l :=
  applyOps_of_no_occurs ops (applyOps ops l) hwf
    (fun op hop => not_occurs_applyOps_self ops l hwf op hop)

set_option maxRecDepth 8000 in
theorem accentOps_wf : accentOps.all opWFb = true := by decide

/-- C8: `replace_latex_accents` is idempotent: for every string `text`,
`replace_latex_accents(replace_latex_accents(text))` equals
`replace_latex_accents(text)`; in particular a second application to
already-converted Unicode text changes nothing. -/
theorem c8_replace_latex_accents_idempotent (text : Str) :
    replaceLatexAccents (replaceLatexAccents text) = replaceLatexAccents text :=
  applyOps_idem accentOps accentOps_wf text

/-! ## Data models (`labdata/models.py`) -/

/-- `Author` dataclass: a resolved or unresolved author reference. -/
structure Author where
  name : Str
  person_id : Option Str
deriving DecidableEq, Repr

/-- `Publication` dataclass. -/
structure Publication where
  bib_id : Str
  title : Str
  authors : List Author
  year : Int
  venue : Str
  category : Str
  entry_type : Str
  abstract : Option Str
  note : Option Str
  pdf_url : Option Str
  doi_url : Option Str
  arxiv_url : Option Str
  url : Option Str
  video_url : Option Str
  project_ids : List Str
deriving DecidableEq, Repr

/-- `Person` dataclass. -/
structure Person where
  id : Str
  name : Str
  aliases : List Str
  role : Option Str
  status : Str
  photo : Option Str
  website : Option Str
  email : Option Str
  start_year : Option Int
  end_year : Option Int
  degree : Option Str
  thesis_title : Option Str
  current_position : Option Str
  publication_count : Nat
  publication_ids : List Str
deriving DecidableEq, Repr

/-- `Project` dataclass. -/
structure Project where
  id : Str
  title : Str
  description : Option Str
  website : Option Str
  status : Str
  publication_ids : List Str
  people_ids : List Str
deriving DecidableEq, Repr

/-- Modelled from the spec: the `Collaborator` entity (name,
`publication_count`, `last_year`).  `labdata/assembler.py` imports and
constructs it from `labdata.models`, but `models.py` under `src/` does not
define it. -/
structure Collaborator where
  name : Str
  publication_count : Nat
  last_year : Int
deriving DecidableEq, Repr

/-- The assembled data set container (`LabData`).  `models.py` declares
the `publications`/`people`/`projects` fields; the `collaborators` and
`lab` fields are modelled from the spec (the assembler passes both to the
`LabData` constructor, and the exporter tests expect a `collaborators`
key, but `models.py` under `src/` lacks them). -/
structure LabData where
  publications : List Publication
  people : List Person
  projects : List Project
  collaborators : List Collaborator
  lab : Option (List (Str × Str))
deriving DecidableEq, Repr

/-! ## Resolver (`labdata/resolver.py`) -/

/-- The literal characters of `"<sup>"`. -/
def openSup : Str := ['<', 's', 'u', 'p', '>']

/-- The literal characters of `"</sup>"`. -/
def closeSup : Str := ['<', '/', 's', 'u', 'p', '>']

/-- Scan for the earliest `"</sup>"`, failing at a newline (re `.` does not
match newlines).  Returns the remainder after the closing tag. -/
def findSupClose : Str → Option Str
  | [] => none
  | c :: rest =>
    if hasPrefixS (c :: rest) closeSup then some ((c :: rest).drop 6)
    else if c == nlChar then none
    else findSupClose rest

/-- Fuelled worker of `removeSups`; each step consumes at least one
character, so fuel equal to the string length always suffices. -/
def removeSupsF : Nat → Str → Str
  | _, [] => []
  | 0, l => l
  | n + 1, c :: cs =>
    if hasPrefixS (c :: cs) openSup then
      match findSupClose ((c :: cs).drop 5) with
      | some rem => removeSupsF n rem
      | none => c :: removeSupsF n cs
    else c :: removeSupsF n cs

/-- Models `re.sub(r'<sup>.*?</sup>', '', ·)`. -/
def removeSups (l : Str) : Str := removeSupsF l.length l

/-- Models `normalize_name` (`resolver.py`): lowercase, strip, NFD-strip
accents, remove periods, remove `<sup>...</sup>` spans, collapse
whitespace. -/
def normalizeName (name : Str) : Str :=
  let n1 := stripWs (name.map pyLower)
  let n2 := n1.map nfdStrip
  let n3 := n2.filter (fun c => !(c == '.'))
  let n4 := removeSups n3
  stripWs (collapseWs n4)

/-- Core of the `^[a-z] [a-z]+$` test of `_ABBREVIATED_NAME_RE`. -/
def isAbbrevCore : Str → Bool
  | c :: s :: rest => asciiLower c && (s == spChar) && !rest.isEmpty && rest.all asciiLower
  | _ => false

/-- Models `is_abbreviated` (`resolver.py`): `bool(re.match(r'^[a-z] [a-z]+$',
name))`.  The `$` anchor also matches just before one final newline. -/
def isAbbreviated (l : Str) : Bool :=
  isAbbrevCore (if l.getLast? == some nlChar then l.dropLast else l)

/-- Python dict lookup on an insertion-ordered association list. -/
def aLookup (idx : List (Str × Str)) (k : Str) : Option Str :=
  (idx.find? (fun kv => kv.1 == k)).map (·.2)

/-- Python dict assignment: overwrite in place, else append. -/
def aAssign (idx : List (Str × Str)) (k v : Str) : List (Str × Str) :=
  match idx with
  | [] => [(k, v)]
  | (k0, v0) :: rest =>
    if k0 == k then (k0, v) :: rest else (k0, v0) :: aAssign rest k v

/-- Python `dict.pop(k)` (the key is known to be present and unique). -/
def aErase (idx : List (Str × Str)) (k : Str) : List (Str × Str) :=
  idx.filter (fun kv => !(kv.1 == k))

/-- Membership in the `ambiguous` dict. -/
def ambHas (amb : List (Str × List Str)) (k : Str) : Bool :=
  amb.any (fun kv => kv.1 == k)

/-- `ambiguous.setdefault(k, [seed]).append(v)`. -/
def ambSeedAppend (amb : List (Str × List Str)) (k seed v : Str) : List (Str × List Str) :=
  match amb with
  | [] => [(k, [seed, v])]
  | (k0, vs) :: rest =>
    if k0 == k then (k0, vs ++ [v]) :: rest else (k0, vs) :: ambSeedAppend rest k seed v

/-- `ambiguous[k].append(v)` (key known to be present). -/
def ambAppend (amb : List (Str × List Str)) (k v : Str) : List (Str × List Str) :=
  match amb with
  | [] => []
  | (k0, vs) :: rest =>
    if k0 == k then (k0, vs ++ [v]) :: rest else (k0, vs) :: ambAppend rest k v

/-- The canonical-name indexing step of `build_alias_index`. -/
def stepName (st : List (Str × Str) × List (Str × List Str)) (f pid : Str) :
    List (Str × Str) × List (Str × List Str) :=
  match aLookup st.1 f with
  | some v =>
    if !(v == pid) then (aErase st.1 f, ambSeedAppend st.2 f v pid)
    else if ambHas st.2 f then st
    else (aAssign st.1 f pid, st.2)
  | none =>
    if ambHas st.2 f then st
    else (aAssign st.1 f pid, st.2)

/-- The alias indexing step of `build_alias_index` (unlike `stepName` it
also appends to an existing ambiguity record). -/
def stepAlias (st : List (Str × Str) × List (Str × List Str)) (f pid : Str) :
    List (Str × Str) × List (Str × List Str) :=
  match aLookup st.1 f with
  | some v =>
    if !(v == pid) then (aErase st.1 f, ambSeedAppend st.2 f v pid)
    else if ambHas st.2 f then (st.1, ambAppend st.2 f pid)
    else (aAssign st.1 f pid, st.2)
  | none =>
    if ambHas st.2 f then (st.1, ambAppend st.2 f pid)
    else (aAssign st.1 f pid, st.2)

/-- Models `build_alias_index` (`resolver.py`): index canonical names and
aliases, removing normalized forms claimed by two different person ids
(the stderr warning is a side effect outside the return value). -/
def buildAliasIndex (people : List Person) : List (Str × Str) :=
  (people.foldl
    (fun st person =>
      let st1 := stepName st (normalizeName person.name) person.id
      person.aliases.foldl
        (fun st2 al => stepAlias st2 (normalizeName al) person.id) st1)
    ([], [])).1

/-! ## `difflib.SequenceMatcher` (standard-library dependency of
`fuzzy_match`), modelled at its interface.

Ratios are kept as exact fractions `(numerator, denominator)` and compared
by cross-multiplication; this models the comparisons `ratio > best_ratio`
and `best_ratio >= threshold` on the exact values the Python floats round
from. -/

/-- Build `b2j` (character → ascending positions in `b`), insertion
ordered. -/
def b2jAux (j : Nat) : Str → List (Char × List Nat) → List (Char × List Nat)
  | [], m => m
  | c :: rest, m =>
    let m' :=
      if m.any (fun e => e.1 == c) then
        m.map (fun e => if e.1 == c then (e.1, e.2 ++ [j]) else e)
      else m ++ [(c, [j])]
    b2jAux (j + 1) rest m'

/-- `b2j` with the autojunk rule: for `len(b) >= 200`, characters occurring
more than `len(b) // 100 + 1` times are dropped from the index
(`SequenceMatcher.__chain_b`; `isjunk` is `None` in `fuzzy_match`). -/
def b2jBuild (b : Str) : List (Char × List Nat) :=
  let m := b2jAux 0 b []
  if 200 ≤ b.length then m.filter (fun e => e.2.length ≤ b.length / 100 + 1) else m

/-- Lookup in `b2j` with default `[]`. -/
def b2jGet (m : List (Char × List Nat)) (c : Char) : List Nat :=
  ((m.find? (fun e => e.1 == c)).map (·.2)).getD []

/-- Lookup in the `j2len` row dict with default 0. -/
def jlGet (m : List (Nat × Nat)) (j : Nat) : Nat :=
  ((m.find? (fun e => e.1 == j)).map (·.2)).getD 0

/-- Assignment into the `j2len` row dict. -/
def jlSet (m : List (Nat × Nat)) (j k : Nat) : List (Nat × Nat) :=
  match m with
  | [] => [(j, k)]
  | (j0, k0) :: rest =>
    if j0 == j then (j0, k) :: rest else (j0, k0) :: jlSet rest j k

/-- The dynamic-programming phase of `find_longest_match`: for each `i` in
`[alo, ahi)` and each position `j` of `a[i]` in `b` within `[blo, bhi)`,
extend the run ending at `(i-1, j-1)` and track the first longest run. -/
def flmDP (a : Str) (m : List (Char × List Nat)) (alo ahi blo bhi : Nat) :
    Nat × Nat × Nat :=
  ((List.range' alo (ahi - alo)).foldl
    (fun (st : (Nat × Nat × Nat) × List (Nat × Nat)) i =>
      let oldj := st.2
      let js := (b2jGet m (a.getD i default)).filter (fun j => blo ≤ j && j < bhi)
      js.foldl
        (fun (p : (Nat × Nat × Nat) × List (Nat × Nat)) j =>
          let k := (if j == 0 then 0 else jlGet oldj (j - 1)) + 1
          let nj := jlSet p.2 j k
          if p.1.2.2 < k then ((i + 1 - k, j + 1 - k, k), nj) else (p.1, nj))
        (st.1, []))
    ((alo, blo, 0), [])).1

/-- The leftward extension loop of `find_longest_match` (the junk set is
empty here, so `not isbjunk(...)` always holds and the second pair of
junk-extension loops never fires). -/
def extLeftF (a b : Str) (alo blo : Nat) : Nat → Nat × Nat × Nat → Nat × Nat × Nat
  | 0, st => st
  | n + 1, (bi, bj, bs) =>
    if alo < bi && blo < bj && (a.getD (bi - 1) default == b.getD (bj - 1) default) then
      extLeftF a b alo blo n (bi - 1, bj - 1, bs + 1)
    else (bi, bj, bs)

/-- The rightward extension loop of `find_longest_match`. -/
def extRightF (a b : Str) (ahi bhi : Nat) : Nat → Nat × Nat × Nat → Nat × Nat × Nat
  | 0, st => st
  | n + 1, (bi, bj, bs) =>
    if bi + bs < ahi && bj + bs < bhi && (a.getD (bi + bs) default == b.getD (bj + bs) default) then
      extRightF a b ahi bhi n (bi, bj, bs + 1)
    else (bi, bj, bs)

/-- Models `SequenceMatcher.find_longest_match` on `[alo, ahi) × [blo, bhi)`
(with empty junk set). -/
def findLongestMatch (a b : Str) (m : List (Char × List Nat)) (alo ahi blo bhi : Nat) :
    Nat × Nat × Nat :=
  let dp := flmDP a m alo ahi blo bhi
  let l := extLeftF a b alo blo dp.1 dp
  extRightF a b ahi bhi ahi l

/-- Total size of all matching blocks (the recursive decomposition of
`get_matching_blocks`; merging adjacent blocks does not change the total).
The fuel bounds the recursion depth; every recursive call strictly shrinks
the combined range, so fuel `|a| + |b| + 1` always suffices. -/
def totalMatchesF (a b : Str) (m : List (Char × List Nat)) :
    Nat → Nat → Nat → Nat → Nat → Nat
  | 0, _, _, _, _ => 0
  | n + 1, alo, ahi, blo, bhi =>
    let r := findLongestMatch a b m alo ahi blo bhi
    let i := r.1
    let j := r.2.1
    let k := r.2.2
    if k == 0 then 0
    else totalMatchesF a b m n alo i blo j + k + totalMatchesF a b m n (i + k) ahi (j + k) bhi

/-- Number of matching characters between `a` and `b` per `SequenceMatcher`. -/
def difflibMatches (a b : Str) : Nat :=
  totalMatchesF a b (b2jBuild b) (a.length + b.length + 1) 0 a.length 0 b.length

/-- `SequenceMatcher.ratio()` as an exact fraction `2*M / (|a|+|b|)`
(`_calculate_ratio` returns 1.0 for two empty sequences). -/
def difflibRatio (a b : Str) : Nat × Nat :=
  let t := a.length + b.length
  if t == 0 then (1, 1) else (2 * difflibMatches a b, t)

/-- Strict `<` between two ratio fractions. -/
def rpLt (x y : Nat × Nat) : Bool := x.1 * y.2 < y.1 * x.2

/-- `threshold <= ratio` for a rational threshold and a ratio fraction. -/
def thLe (t : ℚ) (r : Nat × Nat) : Bool := t.num * r.2 ≤ r.1 * t.den

/-- The best-candidate fold inside `fuzzy_match`: start from ratio 0 and id
`None`, replace only on a strictly greater ratio. -/
def fuzzyFold (index : List (Str × Str)) (normalized : Str) :
    (Nat × Nat) × Option Str :=
  index.foldl
    (fun best kv =>
      let r := difflibRatio normalized kv.1
      if rpLt best.1 r then (r, some kv.2) else best)
    ((0, 1), none)

/-- Default fuzzy threshold (`FUZZY_THRESHOLD = 0.85`). -/
def FUZZY_THRESHOLD : ℚ := 85 / 100

/-- Models `fuzzy_match` (`resolver.py`). -/
def fuzzyMatch (name : Str) (index : List (Str × Str)) (threshold : ℚ) : Option Str :=
  let normalized := normalizeName name
  if isAbbreviated normalized then none
  else
    let best := fuzzyFold index normalized
    if thLe threshold best.1 then best.2 else none

/-- Set-style insertion used for Python `set.add` whose contents are later
passed through `sorted` (order is canonicalized by the sort). -/
def addIfAbsent (l : List Str) (x : Str) : List Str :=
  if x ∈ l then l else l ++ [x]

/-- Resolution of one author (`resolve_authors` loop body): exact match on
the normalized name, else fuzzy match; `if person_id:` is a Python
truthiness test, so an empty-string id from the fuzzy match is treated as
no match. -/
def resolveOneAuthor (index : List (Str × Str)) (threshold : ℚ) (a : Author) :
    Author × Option Str :=
  match aLookup index (normalizeName a.name) with
  | some pid => ({ a with person_id := some pid }, none)
  | none =>
    match fuzzyMatch a.name index threshold with
    | some pid =>
      if pid.isEmpty then (a, some a.name)
      else ({ a with person_id := some pid }, none)
    | none => (a, some a.name)

/-- Models `resolve_authors` (`resolver.py`).  Returns the publications
with resolved authors and the sorted deduplicated unresolved names.  With
an empty roster it is a no-op returning the empty list. -/
def resolveAuthors (publications : List Publication) (people : List Person)
    (threshold : ℚ) : List Publication × List Str :=
  if people.isEmpty then (publications, [])
  else
    let index := buildAliasIndex people
    let step := fun (st : List Publication × List Str) (pub : Publication) =>
      let r := pub.authors.foldl
        (fun (q : List Author × List Str) a =>
          let (a', un) := resolveOneAuthor index threshold a
          (q.1 ++ [a'], match un with | some n => addIfAbsent q.2 n | none => q.2))
        ([], st.2)
      (st.1 ++ [{ pub with authors := r.1 }], r.2)
    let res := publications.foldl step ([], [])
    (res.1, pySorted strLe res.2)

/-- Models `resolve_projects` (`resolver.py`): sorted unknown project ids;
publications are not modified. -/
def resolveProjects (publications : List Publication) (projects : List Project) :
    List Str :=
  let known := projects.map (·.id)
  let unknown := publications.foldl
    (fun acc pub =>
      pub.project_ids.foldl
        (fun acc2 pid => if known.contains pid then acc2 else addIfAbsent acc2 pid)
        acc)
    []
  pySorted strLe unknown

/-! ## Back-linking (`compute_backlinks`, `resolver.py`).

The Python code mutates `Person`/`Project` objects through `people_by_id`
and `projects_by_id` dicts built by comprehension, so for a duplicated id
the object mutated is the last one with that id; `updateLast` reproduces
exactly that aliasing. -/

/-- Apply `f` to the last element whose key is `k` (the object a Python
dict comprehension maps `k` to); identity when no element has key `k`. -/
def updateLast {β : Type} (key : β → Str) (k : Str) (f : β → β) : List β → List β
  | [] => []
  | p :: rest =>
    if rest.any (fun q => key q == k) then p :: updateLast key k f rest
    else if key p == k then f p :: rest
    else p :: rest

/-- Append `bib` to a person's `publication_ids` unless already present. -/
def addPubIdPerson (bib : Str) (p : Person) : Person :=
  if bib ∈ p.publication_ids then p
  else { p with publication_ids := p.publication_ids ++ [bib] }

/-- Append `bib` to a project's `publication_ids` unless already present. -/
def addPubIdProject (bib : Str) (p : Project) : Project :=
  if bib ∈ p.publication_ids then p
  else { p with publication_ids := p.publication_ids ++ [bib] }

/-- The people half of the per-publication back-link pass (`if
author.person_id and author.person_id in people_by_id`). -/
def backlinkPubPeople (people : List Person) (pub : Publication) : List Person :=
  pub.authors.foldl
    (fun ps a =>
      match a.person_id with
      | some pid =>
        if pid.isEmpty then ps
        else updateLast Person.id pid (addPubIdPerson pub.bib_id) ps
      | none => ps)
    people

/-- The projects half of the per-publication back-link pass. -/
def backlinkPubProjects (projects : List Project) (pub : Publication) : List Project :=
  pub.project_ids.foldl
    (fun prs pid => updateLast Project.id pid (addPubIdProject pub.bib_id) prs)
    projects

/-- Recompute a project's `people_ids`: the sorted set of non-empty
resolved author ids over the publications listed in `publication_ids`
(`next(...)` takes the first publication with a matching `bib_id`). -/
def projectPeopleIds (pubs : List Publication) (pubIds : List Str) : List Str :=
  let collected := pubIds.foldl
    (fun acc pubId =>
      match pubs.find? (fun p => p.bib_id == pubId) with
      | some pub =>
        pub.authors.foldl
          (fun acc2 a =>
            match a.person_id with
            | some pid => if pid.isEmpty then acc2 else addIfAbsent acc2 pid
            | none => acc2)
          acc
      | none => acc)
    []
  pySorted strLe collected

/-- Models `compute_backlinks` (`resolver.py`) as a pure function. -/
def computeBacklinks (data : LabData) : LabData :=
  let linked := data.publications.foldl
    (fun (st : List Person × List Project) pub =>
      (backlinkPubPeople st.1 pub, backlinkPubProjects st.2 pub))
    (data.people, data.projects)
  let people2 := linked.1.map
    (fun p => { p with publication_count := p.publication_ids.length })
  let projects2 := linked.2.map
    (fun proj => { proj with people_ids := projectPeopleIds data.publications proj.publication_ids })
  { data with people := people2, projects := projects2 }

/-! ## Assembler (`labdata/assembler.py`) -/

/-- One step of the collaborator tally: bump the per-name publication
counter and fold the publication year into the running maximum
(`collab_years.get(name, 0)` starts the maximum at 0). -/
def collabBump (stats : List (Str × Nat × Int)) (name : Str) (year : Int) :
    List (Str × Nat × Int) :=
  match stats with
  | [] => [(name, 1, max 0 year)]
  | (n, c, y) :: rest =>
    if n == name then (n, c + 1, max y year) :: rest
    else (n, c, y) :: collabBump rest name year

/-- The collaborator tally of `assemble`: one entry per distinct name of an
author with `person_id is None`, in first-seen order, counting one per
author occurrence. -/
def collabStats (pubs : List Publication) : List (Str × Nat × Int) :=
  pubs.foldl
    (fun st pub =>
      pub.authors.foldl
        (fun st2 a =>
          match a.person_id with
          | none => collabBump st2 a.name pub.year
          | some _ => st2)
        st)
    []

/-- The sort key comparison of `assemble`'s collaborator sort:
`(-last_year, -publication_count, name)` compared lexicographically. -/
def collabLe (a b : Collaborator) : Bool :=
  if a.last_year ≠ b.last_year then decide (b.last_year < a.last_year)
  else if a.publication_count ≠ b.publication_count then
    decide (b.publication_count < a.publication_count)
  else strLe a.name b.name

/-- The collaborator block of `assemble` (`assembler.py` lines 61-73). -/
def computeCollaborators (pubs : List Publication) : List Collaborator :=
  pySorted collabLe
    ((collabStats pubs).map (fun s => Collaborator.mk s.1 s.2.1 s.2.2))

/-- Models `assemble` (`assembler.py`) from the point where publications
are parsed and rosters loaded (file reading is the configuration
boundary): resolve authors and projects, aggregate collaborators, build
the `LabData` container and compute back-links.  Returns the data set with
the diagnostics lists. -/
def assembleCore (publications : List Publication) (people : List Person)
    (projects : List Project) (lab : Option (List (Str × Str))) :
    LabData × List Str × List Str :=
  let r := resolveAuthors publications people FUZZY_THRESHOLD
  let unknown := resolveProjects r.1 projects
  let collaborators := computeCollaborators r.1
  let data := LabData.mk r.1 people projects collaborators lab
  (computeBacklinks data, r.2, unknown)

/-! ## LaTeX to Markdown / text (`labdata/latex.py`), regex passes.

Each `re.sub` pass scans left to right; a non-greedy group `(.*?)` captures
up to the earliest closing literal, cannot cross a newline (`.`), and on
failure the scanner advances one character.  All workers are fuelled with
the string length: every step consumes at least one character. -/

/-- Capture a non-greedy group up to the single closing character `close`
(failing at a newline or end of input); returns the content and the
remainder after the close. -/
def findCloseCh (close : Char) : Str → Option (Str × Str)
  | [] => none
  | c :: rest =>
    if c == close then some ([], rest)
    else if c == nlChar then none
    else (findCloseCh close rest).map (fun p => (c :: p.1, p.2))

/-- One generic substitution pass `pre (.*?) close → build content`. -/
def subWrapF (pre : Str) (close : Char) (build : Str → Str) : Nat → Str → Str
  | _, [] => []
  | 0, l => l
  | n + 1, c :: cs =>
    if hasPrefixS (c :: cs) pre then
      match findCloseCh close ((c :: cs).drop pre.length) with
      | some (content, rem) => build content ++ subWrapF pre close build n rem
      | none => c :: subWrapF pre close build n cs
    else c :: subWrapF pre close build n cs

/-- `re.sub` of `pre (.*?) close` by `build` over the whole string. -/
def subWrap (pre : Str) (close : Char) (build : Str → Str) (l : Str) : Str :=
  subWrapF pre close build l.length l

/-- Strip every occurrence of `cmd` together with the following whitespace
run (`re.sub(r'\\textbf\s*', '', ·)` for orphaned commands). -/
def stripCmdWsF (cmd : Str) : Nat → Str → Str
  | _, [] => []
  | 0, l => l
  | n + 1, c :: cs =>
    if hasPrefixS (c :: cs) cmd then
      stripCmdWsF cmd n (((c :: cs).drop cmd.length).dropWhile pyIsSpace)
    else c :: stripCmdWsF cmd n cs

/-- Whole-string version of `stripCmdWsF`. -/
def stripCmdWs (cmd : Str) (l : Str) : Str := stripCmdWsF cmd l.length l

/-- Matcher for the two-group tail `(.*?)\}\{(.*?)\}` of the `\href`
pattern, with regex backtracking: the first group extends past a `}` when
no well-formed second group follows. -/
def href2Split : Str → Option (Str × Str × Str)
  | [] => none
  | c :: rest =>
    if c == nlChar then none
    else if c == cbrace && hasPrefixS rest [obrace] then
      match findCloseCh cbrace (rest.drop 1) with
      | some (g2, rem) => some ([], g2, rem)
      | none => (href2Split rest).map (fun t => (c :: t.1, t.2.1, t.2.2))
    else (href2Split rest).map (fun t => (c :: t.1, t.2.1, t.2.2))

/-- The characters of `"\href{"`. -/
def hrefPre : Str := [bslash, 'h', 'r', 'e', 'f', obrace]

/-- One `re.sub(r'\\href\{(.*?)\}\{(.*?)\}', build, ·)` pass. -/
def subHref2F (build : Str → Str → Str) : Nat → Str → Str
  | _, [] => []
  | 0, l => l
  | n + 1, c :: cs =>
    if hasPrefixS (c :: cs) hrefPre then
      match href2Split ((c :: cs).drop hrefPre.length) with
      | some (g1, g2, rem) => build g1 g2 ++ subHref2F build n rem
      | none => c :: subHref2F build n cs
    else c :: subHref2F build n cs

/-- Whole-string version of `subHref2F`. -/
def subHref2 (build : Str → Str → Str) (l : Str) : Str := subHref2F build l.length l

/-- Decimal digits of a natural number. -/
def natStr (n : Nat) : Str := (Nat.repr n).data

/-- The characters of `"__MATH"`. -/
def mathTag : Str := ['_', '_', 'M', 'A', 'T', 'H']

/-- The math-protection pass of `latex_to_markdown`:
`re.sub(r'\$(.*?)\$', protect_math, ·)` replacing the i-th span with
`__MATH{i}__` and collecting the spans. -/
def mathProtectF : Nat → Nat → Str → Str × List Str
  | _, _, [] => ([], [])
  | 0, _, l => (l, [])
  | n + 1, i, c :: cs =>
    if c == '$' then
      match findCloseCh '$' cs with
      | some (content, rem) =>
        let r := mathProtectF n (i + 1) rem
        (mathTag ++ natStr i ++ ['_', '_'] ++ r.1, content :: r.2)
      | none =>
        let r := mathProtectF n i cs
        (c :: r.1, r.2)
    else
      let r := mathProtectF n i cs
      (c :: r.1, r.2)

/-- Whole-string version of `mathProtectF`. -/
def mathProtect (l : Str) : Str × List Str := mathProtectF l.length 0 l

/-- Numeric value of a digit string. -/
def digitsToNat (l : Str) : Nat := l.foldl (fun acc c => acc * 10 + (c.toNat - 48)) 0

/-- The math-restoration pass `re.sub(r'__MATH(\d+)__', restore_math, ·)`.
An index with no corresponding block raises `IndexError` in Python,
modelled as `none`. -/
def mathRestoreF (blocks : List Str) : Nat → Str → Option Str
  | _, [] => some []
  | 0, l => some l
  | n + 1, c :: cs =>
    let fallback := (mathRestoreF blocks n cs).map (fun r => c :: r)
    if hasPrefixS (c :: cs) mathTag then
      let after := (c :: cs).drop 6
      let digits := after.takeWhile Char.isDigit
      if !digits.isEmpty && hasPrefixS (after.drop digits.length) ['_', '_'] then
        match blocks.get? (digitsToNat digits) with
        | some content =>
          (mathRestoreF blocks n (after.drop (digits.length + 2))).map
            (fun r => '$' :: (content ++ '$' :: r))
        | none => none
      else fallback
    else fallback

/-- Whole-string version of `mathRestoreF`. -/
def mathRestore (blocks : List Str) (l : Str) : Option Str :=
  mathRestoreF blocks l.length l

/-- The characters of `"\textbf{"`. -/
def textbfPre : Str := [bslash, 't', 'e', 'x', 't', 'b', 'f', obrace]

/-- The characters of `"\textbf"`. -/
def textbfCmd : Str := [bslash, 't', 'e', 'x', 't', 'b', 'f']

/-- The characters of `"\emph{"`. -/
def emphPre : Str := [bslash, 'e', 'm', 'p', 'h', obrace]

/-- The characters of `"\textit{"`. -/
def textitPre : Str := [bslash, 't', 'e', 'x', 't', 'i', 't', obrace]

/-- Models `latex_to_markdown` (`labdata/latex.py`).  `none` models the
`IndexError` that `restore_math` raises when the input text itself contains
a `__MATH<i>__` token with no corresponding protected span. -/
def latexToMarkdown (l : Str) : Option Str :=
  let pm := mathProtect l
  let t2 := replaceLatexAccents pm.1
  let t3 := subWrap textbfPre cbrace (fun s => ['*', '*'] ++ s ++ ['*', '*']) t2
  let t4 := stripCmdWs textbfCmd t3
  let t5 := subWrap emphPre cbrace (fun s => '*' :: s ++ ['*']) t4
  let t6 := subWrap textitPre cbrace (fun s => '*' :: s ++ ['*']) t5
  let t7 := subHref2 (fun u t => '[' :: t ++ [']', '('] ++ u ++ [')']) t6
  let t8 := subWrap hrefPre cbrace (fun u => '[' :: u ++ [']', '('] ++ u ++ [')']) t7
  let t9 := subWrap ['^', obrace] cbrace
    (fun s => "<sup>".data ++ s ++ "</sup>".data) t8
  let t10 := subWrap ['_', obrace] cbrace
    (fun s => "<sub>".data ++ s ++ "</sub>".data) t9
  let t11 := t10.filter (fun c => !(c == obrace) && !(c == cbrace))
  mathRestore pm.2 t11

/-- Models `latex_to_text` (`labdata/latex.py`): formatting commands are
unwrapped to their content, braces stripped, math left as literal text. -/
def latexToText (l : Str) : Str :=
  let t1 := replaceLatexAccents l
  let t2 := subWrap textbfPre cbrace id t1
  let t3 := stripCmdWs textbfCmd t2
  let t4 := subWrap emphPre cbrace id t3
  let t5 := subWrap textitPre cbrace id t4
  let t6 := subHref2 (fun _ t => t) t5
  let t7 := subWrap hrefPre cbrace id t6
  let t8 := subWrap ['^', obrace] cbrace id t7
  let t9 := subWrap ['_', obrace] cbrace id t8
  t9.filter (fun c => !(c == obrace) && !(c == cbrace))

/-! ## BibTeX entry formatting (`labdata/parsers/bibtex.py`).

A raw bibliographic record is a string-keyed dict of string fields
(as produced by `bibtexparser`, with `ENTRYTYPE` and `ID` added). -/

/-- A raw BibTeX entry dict. -/
abbrev Entry := List (Str × Str)

/-- `entry.get(k)`. -/
def eget (e : Entry) (k : String) : Option Str :=
  (e.find? (fun kv => kv.1 == k.data)).map (·.2)

/-- `entry.get(k, default)`. -/
def egetD (e : Entry) (k : String) (d : Str) : Str := (eget e k).getD d

/-- Substring test (Python `sub in s`). -/
def containsSub (sub : Str) : Str → Bool
  | [] => hasPrefixS [] sub
  | c :: cs => hasPrefixS (c :: cs) sub || containsSub sub cs

/-- Digit-run parser for Python `int`, allowing single underscores
between digits (`int("1_0") == 10`). -/
def pyIntDigits (acc : Nat) : Str → Option Nat
  | [] => some acc
  | c :: rest =>
    if c.isDigit then pyIntDigits (acc * 10 + (c.toNat - 48)) rest
    else if c == '_' then
      match rest with
      | d :: rest2 =>
        if d.isDigit then pyIntDigits (acc * 10 + (d.toNat - 48)) rest2 else none
      | [] => none
    else none

/-- Models Python `int(str)`: strip whitespace, optional sign, digits
(with underscore separators); `none` models the `ValueError` raised on any
other input. -/
def pyInt (l : Str) : Option Int :=
  let t := stripWs l
  match t with
  | '+' :: r =>
    match r with
    | c :: rest => if c.isDigit then (pyIntDigits (c.toNat - 48) rest).map Int.ofNat else none
    | [] => none
  | '-' :: r =>
    match r with
    | c :: rest =>
      if c.isDigit then (pyIntDigits (c.toNat - 48) rest).map (fun n => -(n : Int)) else none
    | [] => none
  | c :: rest => if c.isDigit then (pyIntDigits (c.toNat - 48) rest).map Int.ofNat else none
  | [] => none

/-- Models the external `bibtexparser.customization.author` splitting at
its interface: the raw field is split on the `" and "` separator (after
newlines are replaced by spaces) and each name is stripped.  The library's
`Last, First` re-normalization of individual names is not needed by any
claim and is modelled as the identity on each name. -/
def splitSepF (sep : Str) : Nat → Str → Str → List Str
  | _, acc, [] => [acc]
  | 0, acc, l => [acc ++ l]
  | n + 1, acc, c :: cs =>
    if hasPrefixS (c :: cs) sep then
      acc :: splitSepF sep n [] ((c :: cs).drop sep.length)
    else splitSepF sep n (acc ++ [c]) cs

/-- Split a string on every occurrence of `sep`. -/
def splitSep (sep l : Str) : List Str := splitSepF sep l.length [] l

/-- See `splitSepF`: the author-field split of the external library. -/
def pyParseAuthorField (raw : Str) : List Str :=
  (splitSep (spChar :: ['a', 'n', 'd', spChar])
      (raw.map (fun c => if c == nlChar then spChar else c))).map stripWs

/-- Python `str.split()` (split on whitespace runs, dropping empties). -/
def pySplitWsF : Nat → Str → List Str
  | _, [] => []
  | 0, _ => []
  | n + 1, c :: cs =>
    if pyIsSpace c then pySplitWsF n cs
    else
      let w := (c :: cs).takeWhile (fun d => !pyIsSpace d)
      w :: pySplitWsF n ((c :: cs).drop w.length)

/-- Whole-string version of `pySplitWsF`. -/
def pySplitWs (l : Str) : List Str := pySplitWsF l.length l

/-- Matcher for the tail `(.+?)\}\$?$` of the superscript-affiliation
pattern in `_abbreviate_name`: a nonempty lazy group up to a `}` that is
followed by at most a `"$"` and the end of the string. -/
def supContent (acc : Str) : Str → Option Str
  | [] => none
  | c :: rest =>
    if c == cbrace && (rest.isEmpty || rest == ['$']) && !acc.isEmpty then some acc
    else if c == nlChar then none
    else supContent (acc ++ [c]) rest

/-- Models `re.search(r'(.*?)\$?\^\{(.+?)\}\$?$', last)`: scan for the
leftmost `\^\{` (optionally preceded by `$`) whose brace group reaches the
end of the string; returns the prefix and the group. -/
def supScan (g1 : Str) : Str → Option (Str × Str)
  | [] => none
  | c :: rest =>
    if c == nlChar then none
    else if c == '$' && hasPrefixS rest ['^', obrace] then
      match supContent [] (rest.drop 2) with
      | some g2 => some (g1, g2)
      | none => supScan (g1 ++ [c]) rest
    else if c == '^' && hasPrefixS rest [obrace] then
      match supContent [] (rest.drop 1) with
      | some g2 => some (g1, g2)
      | none => supScan (g1 ++ [c]) rest
    else supScan (g1 ++ [c]) rest

/-- Models `_abbreviate_name` (`bibtex.py`): accent replacement, `Last,
First` handling, superscript-affiliation extraction and initials. -/
def abbreviateName (name : Str) : Str :=
  let n := replaceLatexAccents name
  if ',' ∈ n then
    let last0 := stripWs (n.takeWhile (fun c => !(c == ',')))
    let first0 := stripWs ((n.dropWhile (fun c => !(c == ','))).drop 1)
    let last1 := replaceLatexAccents last0
    let ls :=
      match supScan [] last1 with
      | some (base, g2) => (base, "<sup>".data ++ g2 ++ "</sup>".data)
      | none => (last1, [])
    let first1 := replaceLatexAccents first0
    let cleaned := stripWs (subWrap ['('] ')' (fun _ => []) first1)
    let initials :=
      (pySplitWs cleaned).map (fun part => [part.headD default, '.'])
    stripWs ((List.intersperse [spChar] initials).flatten ++ [spChar] ++ ls.1 ++ ls.2)
  else n

/-- Models `parse_author_list` (`bibtex.py`).  The `except` fallback to a
single literal author cannot fire in this model because the modelled
splitter is total. -/
def parseAuthorList (raw : Str) : List Author :=
  if (stripWs raw).isEmpty then []
  else (pyParseAuthorField raw).map (fun n => Author.mk (abbreviateName n) none)

/-- Models `format_authors_string` (`bibtex.py`). -/
def formatAuthorsString (authors : List Author) : Str :=
  let names := authors.map (·.name)
  if names.length ≤ 2 then (List.intersperse (spChar :: ['a', 'n', 'd', spChar]) names).flatten
  else
    (List.intersperse [',', spChar] names.dropLast).flatten ++
      [',', spChar] ++ ['a', 'n', 'd', spChar] ++ names.getLastD []

/-- Strip one layer of curly braces (`.replace('{','').replace('}','')`). -/
def stripBraces (l : Str) : Str :=
  l.filter (fun c => !(c == obrace) && !(c == cbrace))

/-- Models `format_venue` (`bibtex.py`). -/
def formatVenue (e : Entry) : Str :=
  let typ := egetD e "ENTRYTYPE" []
  let year := egetD e "year" []
  if typ == "phdthesis".data then
    "PhD thesis, ".data ++ egetD e "school" [] ++ [',', spChar] ++ year
  else if typ == "mastersthesis".data then
    "Masters thesis, ".data ++ egetD e "school" [] ++ [',', spChar] ++ year
  else if typ == "techreport".data then
    let kind := egetD e "type" "Technical Report".data
    let num := egetD e "number" []
    let inst := egetD e "institution" []
    (kind ++ (if num.isEmpty then [] else spChar :: num)) ++ [',', spChar] ++ inst ++
      [',', spChar] ++ year
  else if typ == "misc".data && !(egetD e "eprint" []).isEmpty then
    '*' :: "arXiv:".data ++ egetD e "eprint" [] ++ ['*', ',', spChar] ++ year
  else if typ == "article".data then
    let journal := stripBraces (egetD e "journal" [])
    let vol := egetD e "volume" []
    let num := egetD e "number" []
    let base := '*' :: journal ++ ['*']
    let base2 := if vol.isEmpty then base
      else base ++ [',', spChar] ++ vol ++
        (if num.isEmpty then [] else '(' :: num ++ [')'])
    if year.isEmpty then base2 else base2 ++ [',', spChar] ++ year
  else if typ == "inproceedings".data then
    let conf := latexToText (stripBraces (egetD e "booktitle" []))
    if conf.isEmpty then year else '*' :: conf ++ ['*', ',', spChar] ++ year
  else year

/-- Models `extract_note` (`bibtex.py`).  The outer `Option` is the
exception channel of `latex_to_markdown`; the inner one is the `None`
returned for an empty note. -/
def extractNote (e : Entry) : Option (Option Str) :=
  let note := ((stripWs (egetD e "note" [])).reverse.dropWhile
    (fun c => c == '.' || c == spChar)).reverse
  if note.isEmpty then some none
  else (latexToMarkdown note).map some

/-- Models `extract_video_url` (`bibtex.py`): the URL is classified as a
video URL when it contains one of the three video-host substrings anywhere. -/
def extractVideoUrl (e : Entry) : Option Str :=
  let url := egetD e "url" []
  if !url.isEmpty &&
      (containsSub "youtube.com".data url || containsSub "youtu.be".data url ||
        containsSub "vimeo.com".data url) then
    some url
  else none

/-- Models `construct_doi_url` (`bibtex.py`). -/
def constructDoiUrl (e : Entry) : Option Str :=
  match eget e "doi" with
  | some doi0 =>
    if doi0.isEmpty then none
    else
      let doi := stripWs doi0
      if hasPrefixS doi "http".data then some doi
      else some ("https://doi.org/".data ++ doi)
  | none => none

/-- Models `construct_arxiv_url` (`bibtex.py`). -/
def constructArxivUrl (e : Entry) : Option Str :=
  match eget e "eprint" with
  | some eprint =>
    if eprint.isEmpty then none
    else
      let prefix0 := egetD e "archivePrefix" (egetD e "archiveprefix" [])
      if (prefix0.map pyLower) == "arxiv".data || prefix0.isEmpty then
        some ("https://arxiv.org/abs/".data ++ eprint)
      else none
  | none => none

/-- Models `parse_project_ids` (`bibtex.py`): strip, remove enclosing
braces, split on commas, strip tokens, drop empties. -/
def parseProjectIds (e : Entry) : List Str :=
  let f0 := stripWs (egetD e "project" [])
  if f0.isEmpty then []
  else
    let inBraceSet := fun c => c == obrace || c == cbrace
    let f1 := ((f0.dropWhile inBraceSet).reverse.dropWhile inBraceSet).reverse
    ((splitSep [','] f1).map stripWs).filter (fun p => !p.isEmpty)

/-- Models `resolve_pdf_url` (`bibtex.py`); `fsExists` is the filesystem
boundary (`Path(...).exists()`). -/
def resolvePdfUrl (fsExists : Str → Bool) (bibId : Str) (pdfBase : Option Str) :
    Option Str :=
  match pdfBase with
  | none => none
  | some base =>
    if base.isEmpty then none
    else
      let path := base ++ '/' :: bibId ++ ".pdf".data
      if hasPrefixS base "http://".data || hasPrefixS base "https://".data then some path
      else if fsExists path then some path else none

/-- Models `entry_to_publication` (`bibtex.py`).  `none` is the exception
channel: `int(entry.get("year", 0))` raises `ValueError` on a present but
unparseable year, and `latex_to_markdown` can raise on adversarial
`__MATH<i>__` tokens. -/
def entryToPublication (fsExists : Str → Bool) (e : Entry) (category : Str)
    (pdfBase : Option Str) : Option Publication :=
  match latexToMarkdown (egetD e "title" []) with
  | none => none
  | some title =>
    let authors := parseAuthorList (egetD e "author" [])
    let url0 := egetD e "url" []
    let video := extractVideoUrl e
    match (match eget e "year" with | none => some (0 : Int) | some s => pyInt s) with
    | none => none
    | some yr =>
      match extractNote e with
      | none => none
      | some note =>
        some
          { bib_id := egetD e "ID" []
            title := title
            authors := authors
            year := yr
            venue := formatVenue e
            category := category
            entry_type := egetD e "ENTRYTYPE" []
            abstract := eget e "abstract"
            note := note
            pdf_url := resolvePdfUrl fsExists (egetD e "ID" []) pdfBase
            doi_url := constructDoiUrl e
            arxiv_url := constructArxivUrl e
            url := if !url0.isEmpty && video == none then some url0 else none
            video_url := video
            project_ids := parseProjectIds e }

/-- The descending-by-year comparison used by `parse_all_publications`
(`publications.sort(key=lambda p: p.year, reverse=True)`; Python's sort is
stable, also with `reverse=True`). -/
def pubYearDesc (p q : Publication) : Bool := decide (q.year ≤ p.year)

/-- The flat, source-encounter-ordered publication list built by the loop
of `parse_all_publications` (`bibtex.py`): file order, then in-file order.
`readBib` is the file boundary: the entries `bibtexparser` yields for the
file at `bib_dir/<name>` (a missing or unparseable file raises at that
boundary).  Conversion failures of `entry_to_publication` propagate as
`none`. -/
def flatParsedPublications (fsExists : Str → Bool) (readBib : Str → List Entry)
    (bibDir : Str) (bibFiles : List (Str × Str)) (pdfBase : Option Str) :
    Option (List Publication) :=
  bibFiles.foldl
    (fun (acc : Option (List Publication)) bf =>
      match acc with
      | none => none
      | some pubs =>
        (readBib (bibDir ++ '/' :: bf.1)).foldl
          (fun a entry =>
            match a with
            | none => none
            | some ps =>
              match entryToPublication fsExists entry bf.2 pdfBase with
              | none => none
              | some p => some (ps ++ [p]))
          (some pubs))
    (some [])

/-- The final sort of `parse_all_publications`. -/
def parseAllPublications (fsExists : Str → Bool) (readBib : Str → List Entry)
    (bibDir : Str) (bibFiles : List (Str × Str)) (pdfBase : Option Str) :
    Option (List Publication) :=
  (flatParsedPublications fsExists readBib bibDir bibFiles pdfBase).map
    (pySorted pubYearDesc)

/-! ## Claim theorems -/

/-- C9: for every publications list, if the roster of people is empty then
`resolve_authors` returns the empty unresolved list and leaves every
Author's `person_id` unchanged (the publications are returned untouched);
an empty or missing roster never produces unresolved-name diagnostics. -/
theorem c9_resolve_authors_empty_roster (publications : List Publication) (threshold : ℚ) :
    resolveAuthors publications [] threshold = (publications, []) := rfl

/-- C6: for every author name whose normalized form matches the
single-initial-plus-surname pattern, `fuzzy_match` returns `None` for
every alias index and every threshold, even when a near-identical alias
exists in the index. -/
theorem c6_fuzzy_match_skips_abbreviated (name : Str) (index : List (Str × Str))
    (threshold : ℚ) (h : isAbbreviated (normalizeName name) = true) :
    fuzzyMatch name index threshold = none := by
  simp [fuzzyMatch, h]

/-- Witness for C6 at `"S. Choudhury"` with the identical alias indexed. -/
theorem c6_fuzzy_match_skips_abbreviated_witness :
    fuzzyMatch "S. Choudhury".data [("s choudhury".data, "p1".data)] 0 = none :=
  c6_fuzzy_match_skips_abbreviated "S. Choudhury".data
    [("s choudhury".data, "p1".data)] 0 (by decide)

/-- A raw record whose `year` field is present but not parseable as an
integer. -/
def c3BadYearEntry : Entry := [("year".data, "n.d.".data)]

set_option maxRecDepth 40000 in
/-- Counterexample to C3 as stated: on a record with the unparseable year
`"n.d."`, `entry_to_publication` does not return a Publication with year 0;
`int("n.d.")` raises `ValueError` (modelled by `none`). -/
theorem c3_counterexample :
    entryToPublication (fun _ => false) c3BadYearEntry "C".data none = none ∧
    pyInt "n.d.".data = none := by
  constructor
  · decide
  · decide

/-- C3 (amended): `entry_to_publication`'s year is an integer obtained as
follows: an absent `year` field yields 0 with no error; a present `year`
field is parsed by Python `int`, whose value becomes `year`, and an
unparseable value raises `ValueError` (no Publication is returned). -/
theorem c3_year_parsing (fsExists : Str → Bool) (e : Entry) (category : Str)
    (pdfBase : Option Str) :
    (eget e "year" = none →
      ∀ p, entryToPublication fsExists e category pdfBase = some p → p.year = 0) ∧
    (∀ s, eget e "year" = some s → pyInt s = none →
      entryToPublication fsExists e category pdfBase = none) ∧
    (∀ s n, eget e "year" = some s → pyInt s = some n →
      ∀ p, entryToPublication fsExists e category pdfBase = some p → p.year = n) := by
  refine ⟨?_, ?_, ?_⟩
  · intro hy p hp
    unfold entryToPublication at hp
    rcases hT : latexToMarkdown (egetD e "title" []) with _ | title
    · rw [hT] at hp; exact absurd hp (by simp)
    · rw [hT] at hp
      simp only [hy] at hp
      rcases hN : extractNote e with _ | note
      · rw [hN] at hp; exact absurd hp (by simp)
      · rw [hN] at hp
        simp only [Option.some.injEq] at hp
        rw [← hp]
  · intro s hy hs
    unfold entryToPublication
    rcases hT : latexToMarkdown (egetD e "title" []) with _ | title
    · rfl
    · simp only [hy, hs]
  · intro s n hy hs p hp
    unfold entryToPublication at hp
    rcases hT : latexToMarkdown (egetD e "title" []) with _ | title
    · rw [hT] at hp; exact absurd hp (by simp)
    · rw [hT] at hp
      simp only [hy, hs] at hp
      rcases hN : extractNote e with _ | note
      · rw [hN] at hp; exact absurd hp (by simp)
      · rw [hN] at hp
        simp only [Option.some.injEq] at hp
        rw [← hp]

/-- The Publication produced from the empty raw record. -/
def emptyEntryPub : Publication :=
  { bib_id := []
    title := []
    authors := []
    year := 0
    venue := []
    category := "C".data
    entry_type := []
    abstract := none
    note := none
    pdf_url := none
    doi_url := none
    arxiv_url := none
    url := none
    video_url := none
    project_ids := [] }

set_option maxRecDepth 40000 in
/-- Witness for C3 (amended) on the empty record: the year field is absent
and the produced Publication has year 0. -/
theorem c3_year_parsing_witness : emptyEntryPub.year = 0 :=
  (c3_year_parsing (fun _ => false) [] "C".data none).1 (by decide) emptyEntryPub (by decide)

/-- The remainder of `l` after the first occurrence of `sep`, if any. -/
def afterSep (sep : Str) : Str → Option Str
  | [] => none
  | c :: cs =>
    if hasPrefixS (c :: cs) sep then some ((c :: cs).drop sep.length)
    else afterSep sep cs

/-- Suffix test. -/
def hasSuffixS (l suf : Str) : Bool := hasPrefixS l.reverse suf.reverse

/-- Follows the spec's words (claim C4): the host component of a URL — the
text after any scheme separator `"://"` up to the first `/`, `?`, `#` or
`:`. -/
def urlHost (url : Str) : Str :=
  ((afterSep "://".data url).getD url).takeWhile
    (fun c => !(c == '/' || c == '?' || c == '#' || c == ':'))

/-- Follows the spec's words (claim C4): the URL's host matches one of the
known video-hosting domains (youtube.com, youtu.be, vimeo.com), either
exactly or as a dot-separated domain suffix. -/
def specHostMatchesVideo (url : Str) : Bool :=
  ["youtube.com", "youtu.be", "vimeo.com"].any
    (fun d => urlHost url == d.data || hasSuffixS (urlHost url) ('.' :: d.data))

/-- The classification the code actually performs (`extract_video_url`):
one of the video-host names occurs as a substring anywhere in the URL. -/
def hasVideoSubstr (url : Str) : Bool :=
  containsSub "youtube.com".data url || containsSub "youtu.be".data url ||
    containsSub "vimeo.com".data url

/-- A URL whose host is `example.com` but which mentions `youtube.com` in
its query string. -/
def c4Url : Str := "https://example.com/a?x=youtube.com".data

set_option maxRecDepth 40000 in
/-- Counterexample to C4 as stated: the raw URL `c4Url` has host
`example.com` — not a video host — yet `entry_to_publication` classifies
it as `video_url` (and clears `url`), because `extract_video_url` tests
for the substring anywhere in the URL rather than the host. -/
theorem c4_counterexample :
    (entryToPublication (fun _ => false) [("url".data, c4Url)] "C".data none).map
       (fun p => (p.url, p.video_url)) = some (none, some c4Url) ∧
    specHostMatchesVideo c4Url = false := by
  constructor
  · decide
  · decide

/-- C4 (amended): every Publication produced by `entry_to_publication` has
at most one of `url`/`video_url` populated; the raw URL field is
classified as `video_url` exactly when it contains one of the substrings
`youtube.com`, `youtu.be`, `vimeo.com` anywhere (not merely in the host),
in which case it is excluded from `url`; otherwise a nonempty raw URL
becomes the generic `url`. -/
theorem c4_url_video_classification (fsExists : Str → Bool) (e : Entry)
    (category : Str) (pdfBase : Option Str) (p : Publication)
    (h : entryToPublication fsExists e category pdfBase = some p) :
    (p.url = none ∨ p.video_url = none) ∧
    p.video_url = (if !(egetD e "url" []).isEmpty && hasVideoSubstr (egetD e "url" [])
      then some (egetD e "url" []) else none) ∧
    p.url = (if !(egetD e "url" []).isEmpty && !hasVideoSubstr (egetD e "url" [])
      then some (egetD e "url" []) else none) := by
  have hfields : p.video_url = extractVideoUrl e ∧
      p.url = (if !(egetD e "url" []).isEmpty && extractVideoUrl e == none
        then some (egetD e "url" []) else none) := by
    unfold entryToPublication at h
    rcases hT : latexToMarkdown (egetD e "title" []) with _ | title
    · rw [hT] at h; exact absurd h (by simp)
    · rw [hT] at h
      rcases hY : (match eget e "year" with
        | none => some (0 : Int)
        | some s => pyInt s) with _ | yr
      · rw [hY] at h; exact absurd h (by simp)
      · rw [hY] at h
        rcases hN : extractNote e with _ | note
        · rw [hN] at h; exact absurd h (by simp)
        · rw [hN] at h
          simp only [Option.some.injEq] at h
          rw [← h]
          exact ⟨rfl, rfl⟩
  have hvid : extractVideoUrl e =
      (if !(egetD e "url" []).isEmpty && hasVideoSubstr (egetD e "url" [])
        then some (egetD e "url" []) else none) := by
    unfold extractVideoUrl hasVideoSubstr
    rfl
  refine ⟨?_, ?_, ?_⟩
  · rw [hfields.1, hfields.2, hvid]
    cases hu : (!(egetD e "url" []).isEmpty && hasVideoSubstr (egetD e "url" [])) with
    | true => left; simp [hu]
    | false => right; simp [hu]
  · rw [hfields.1, hvid]
  · rw [hfields.2, hvid]
    cases he : (egetD e "url" []).isEmpty with
    | true => simp [he]
    | false =>
      cases hv : hasVideoSubstr (egetD e "url" []) with
      | true => simp [he, hv]
      | false => simp [he, hv]

/-- The Publication produced from a record whose only field is a
`youtu.be` URL. -/
def c4VideoPub : Publication :=
  { bib_id := []
    title := []
    authors := []
    year := 0
    venue := []
    category := "C".data
    entry_type := []
    abstract := none
    note := none
    pdf_url := none
    doi_url := none
    arxiv_url := none
    url := none
    video_url := some "https://youtu.be/x".data
    project_ids := [] }

set_option maxRecDepth 40000 in
/-- Witness for C4 (amended) on a record carrying a `youtu.be` URL. -/
theorem c4_url_video_classification_witness :
    (c4VideoPub.url = none ∨ c4VideoPub.video_url = none) ∧
    c4VideoPub.video_url =
      (if !(egetD [("url".data, "https://youtu.be/x".data)] "url" []).isEmpty &&
          hasVideoSubstr (egetD [("url".data, "https://youtu.be/x".data)] "url" [])
        then some (egetD [("url".data, "https://youtu.be/x".data)] "url" []) else none) ∧
    c4VideoPub.url =
      (if !(egetD [("url".data, "https://youtu.be/x".data)] "url" []).isEmpty &&
          !hasVideoSubstr (egetD [("url".data, "https://youtu.be/x".data)] "url" [])
        then some (egetD [("url".data, "https://youtu.be/x".data)] "url" []) else none) :=
  c4_url_video_classification (fun _ => false) [("url".data, "https://youtu.be/x".data)]
    "C".data none c4VideoPub (by decide)

/-- C7: `parse_all_publications` returns the flat list of all records'
Publications (`flatParsedPublications`, in file order then in-file order)
sorted by year descending, and the sort is stable: any two publications
with equal year appear in their source encounter order, witnessed by the
sorted list's year-`y` sublist coinciding with the flat list's for every
year. -/
theorem c7_parse_all_publications_sorted (fsExists : Str → Bool)
    (readBib : Str → List Entry) (bibDir : Str) (bibFiles : List (Str × Str))
    (pdfBase : Option Str) :
    parseAllPublications fsExists readBib bibDir bibFiles pdfBase
      = (flatParsedPublications fsExists readBib bibDir bibFiles pdfBase).map
          (pySorted pubYearDesc) ∧
    ∀ F : List Publication,
      List.Perm (pySorted pubYearDesc F) F ∧
      (pySorted pubYearDesc F).Pairwise (fun p q => pubYearDesc p q = true) ∧
      ∀ y : Int,
        (pySorted pubYearDesc F).filter (fun p => p.year == y)
          = F.filter (fun p => p.year == y) := by
  have htrans : ∀ a b c : Publication,
      pubYearDesc a b → pubYearDesc b c → pubYearDesc a c := by
    intro a b c hab hbc
    simp only [pubYearDesc, decide_eq_true_eq] at *
    omega
  have htot : ∀ a b : Publication, pubYearDesc a b ∨ pubYearDesc b a := by
    intro a b
    simp only [pubYearDesc, decide_eq_true_eq]
    omega
  refine ⟨rfl, ?_⟩
  intro F
  refine ⟨pySorted_perm pubYearDesc F, pySorted_sorted pubYearDesc htrans htot F, ?_⟩
  intro y
  apply pySorted_filter pubYearDesc (fun p => p.year == y) htrans ?_ htot F
  intro a b ha hb
  simp only [beq_iff_eq] at ha hb
  simp only [pubYearDesc, decide_eq_true_eq]
  omega

/-! ## Order facts about `strLt`/`strLe` and `collabLe` -/

theorem strLt_asymm : ∀ (a b : Str), strLt a b = true → strLt b a = false
  | [], b => by
    intro h
    cases b with
    | nil => simp [strLt] at h
    | cons d ds => rfl
  | _ :: _, [] => by simp [strLt]
  | c :: cs, d :: ds => by
    simp only [strLt]
    by_cases h1 : c.toNat < d.toNat
    · intro _
      have h2 : ¬ d.toNat < c.toNat := by omega
      simp [h1, h2]
    · by_cases h2 : d.toNat < c.toNat
      · simp [h1, h2]
      · intro h
        simp only [if_neg h1, if_neg h2] at h
        have h3 := strLt_asymm cs ds h
        simp [h1, h2, h3]

theorem strLt_trans : ∀ (a b c : Str), strLt a b = true → strLt b c = true →
    strLt a c = true
  | [], b, [] => by
    intro h1 h2
    cases b with
    | nil => simp [strLt] at h1
    | cons d ds => simp [strLt] at h2
  | [], [], _ :: _ => by simp [strLt]
  | [], _ :: _, _ :: _ => by simp [strLt]
  | _ :: _, [], _ => by simp [strLt]
  | _ :: _, _ :: _, [] => by simp [strLt]
  | x :: xs, y :: ys, z :: zs => by
    simp only [strLt]
    intro hab hbc
    by_cases h1 : x.toNat < y.toNat
    · by_cases h2 : y.toNat < z.toNat
      · simp [show x.toNat < z.toNat by omega]
      · simp only [if_neg h2] at hbc
        by_cases h3 : z.toNat < y.toNat
        · simp [h3] at hbc
        · simp [show x.toNat < z.toNat by omega]
    · simp only [if_neg h1] at hab
      by_cases h1' : y.toNat < x.toNat
      · simp [h1'] at hab
      · simp only [if_neg h1'] at hab
        by_cases h2 : y.toNat < z.toNat
        · simp [show x.toNat < z.toNat by omega]
        · simp only [if_neg h2] at hbc
          by_cases h3 : z.toNat < y.toNat
          · simp [h3] at hbc
          · simp only [if_neg h3] at hbc
            have h4 : ¬ x.toNat < z.toNat := by omega
            have h5 : ¬ z.toNat < x.toNat := by omega
            simp [h4, h5, strLt_trans xs ys zs hab hbc]

theorem char_toNat_inj {c d : Char} (h : c.toNat = d.toNat) : c = d := by
  have := Char.ofNat_toNat c
  rw [h, Char.ofNat_toNat d] at this
  exact this.symm

theorem strLt_connex : ∀ (a b : Str), strLt a b = false → strLt b a = false → a = b
  | [], [] => by simp
  | [], _ :: _ => by simp [strLt]
  | _ :: _, [] => by simp [strLt]
  | c :: cs, d :: ds => by
    simp only [strLt]
    intro hab hba
    by_cases h1 : c.toNat < d.toNat
    · simp [h1] at hab
    · by_cases h2 : d.toNat < c.toNat
      · simp [h1, h2] at hba
      · simp only [if_neg h1, if_neg h2] at hab hba
        have hcd : c = d := char_toNat_inj (by omega)
        rw [hcd, strLt_connex cs ds hab hba]

theorem strLe_total (a b : Str) : strLe a b = true ∨ strLe b a = true := by
  unfold strLe
  cases h : strLt b a with
  | false => left; rfl
  | true => right; rw [strLt_asymm b a h]; rfl

theorem strLe_trans {a b c : Str} (hab : strLe a b = true) (hbc : strLe b c = true) :
    strLe a c = true := by
  unfold strLe at *
  simp only [Bool.not_eq_true', Bool.not_eq_false'] at *
  cases hca : strLt c a with
  | false => rfl
  | true =>
    exfalso
    cases hab' : strLt a b with
    | true =>
      have := strLt_trans c a b hca hab'
      rw [this] at hbc
      exact Bool.true_eq_false.mp hbc
    | false =>
      have : a = b := strLt_connex a b hab' hab
      rw [this] at hca
      rw [hca] at hbc
      exact Bool.true_eq_false.mp hbc

theorem collabLe_iff {a b : Collaborator} : collabLe a b = true ↔
    (b.last_year < a.last_year ∨ (a.last_year = b.last_year ∧
      (b.publication_count < a.publication_count ∨
        (a.publication_count = b.publication_count ∧ strLe a.name b.name = true)))) := by
  unfold collabLe
  by_cases h1 : a.last_year = b.last_year
  · by_cases h2 : a.publication_count = b.publication_count
    · simp [h1, h2]
    · simp [h1, h2]
  · simp [h1]

theorem collabLe_total (a b : Collaborator) : collabLe a b = true ∨ collabLe b a = true := by
  rw [collabLe_iff, collabLe_iff]
  by_cases h1 : a.last_year = b.last_year
  · by_cases h2 : a.publication_count = b.publication_count
    · rcases strLe_total a.name b.name with h | h
      · left; right; exact ⟨h1, Or.inr ⟨h2, h⟩⟩
      · right; right; exact ⟨h1.symm, Or.inr ⟨h2.symm, h⟩⟩
    · rcases Nat.lt_or_ge a.publication_count b.publication_count with h | h
      · right; right; exact ⟨h1.symm, Or.inl h⟩
      · left; right; exact ⟨h1, Or.inl (by omega)⟩
  · rcases Int.lt_or_lt_of_ne h1 with h | h
    · right; left; exact h
    · left; left; exact h

theorem collabLe_trans {a b c : Collaborator} (hab : collabLe a b = true)
    (hbc : collabLe b c = true) : collabLe a c = true := by
  rw [collabLe_iff] at *
  rcases hab with h | ⟨hy1, hab⟩
  · rcases hbc with h' | ⟨hy2, _⟩
    · left; omega
    · left; omega
  · rcases hbc with h' | ⟨hy2, hbc⟩
    · left; omega
    · right
      refine ⟨by omega, ?_⟩
      rcases hab with h | ⟨hc1, hab⟩
      · rcases hbc with h' | ⟨hc2, _⟩
        · left; omega
        · left; omega
      · rcases hbc with h' | ⟨hc2, hbc⟩
        · left; omega
        · right; exact ⟨by omega, strLe_trans hab hbc⟩

/-! ## Characterization of the collaborator tally (claim C2) -/

/-- The unresolved author occurrences of a publication list, in encounter
order: one `(name, year)` event per author entry with `person_id is None`. -/
def collabEvents (pubs : List Publication) : List (Str × Int) :=
  pubs.foldr
    (fun pub acc =>
      (pub.authors.filterMap (fun a =>
        match a.person_id with
        | none => some (a.name, pub.year)
        | some _ => none)) ++ acc)
    []

/-- The years of the unresolved author occurrences carrying `name`, in
encounter order (one entry per occurrence, so a publication listing the
name twice contributes twice). -/
def unresolvedYears (pubs : List Publication) (name : Str) : List Int :=
  ((collabEvents pubs).filter (fun e => e.1 == name)).map (·.2)

/-- Lookup in the tally association list. -/
def sLookup (st : List (Str × Nat × Int)) (name : Str) : Option (Nat × Int) :=
  (st.find? (fun e => e.1 == name)).map (·.2)

/-- The event-processing step. -/
def collabStep (st : List (Str × Nat × Int)) (e : Str × Int) : List (Str × Nat × Int) :=
  collabBump st e.1 e.2

theorem collabStats_eq_events (pubs : List Publication) :
    collabStats pubs = (collabEvents pubs).foldl collabStep [] := by
  suffices h : ∀ (pubs : List Publication) (st : List (Str × Nat × Int)),
      pubs.foldl
        (fun st pub =>
          pub.authors.foldl
            (fun st2 a =>
              match a.person_id with
              | none => collabBump st2 a.name pub.year
              | some _ => st2)
            st)
        st = (collabEvents pubs).foldl collabStep st by
    exact h pubs []
  intro pubs
  induction pubs with
  | nil => intro st; rfl
  | cons pub rest ih =>
    intro st
    have hpub : ∀ (authors : List Author) (st : List (Str × Nat × Int)),
        authors.foldl
          (fun st2 a =>
            match a.person_id with
            | none => collabBump st2 a.name pub.year
            | some _ => st2)
          st
        = (authors.filterMap (fun a =>
            match a.person_id with
            | none => some (a.name, pub.year)
            | some _ => none)).foldl collabStep st := by
      intro authors
      induction authors with
      | nil => intro st; rfl
      | cons a as iha =>
        intro st
        cases ha : a.person_id with
        | none => simp only [List.foldl_cons, List.filterMap_cons, ha, iha]; rfl
        | some pid => simp only [List.foldl_cons, List.filterMap_cons, ha, iha]
    have hev : collabEvents (pub :: rest)
        = (pub.authors.filterMap (fun a =>
            match a.person_id with
            | none => some (a.name, pub.year)
            | some _ => none)) ++ collabEvents rest := rfl
    rw [List.foldl_cons, ih, hev, List.foldl_append, hpub]

theorem sLookup_bump_same (st : List (Str × Nat × Int)) (n : Str) (y : Int) :
    sLookup (collabBump st n y) n =
      match sLookup st n with
      | none => some (1, max 0 y)
      | some p => some (p.1 + 1, max p.2 y) := by
  induction st with
  | nil => simp [collabBump, sLookup, List.find?]
  | cons e rest ih =>
    obtain ⟨m, c, yy⟩ := e
    by_cases h : m = n
    · subst h
      simp [collabBump, sLookup, List.find?]
    · have hb : (m == n) = false := by simp [h]
      simp only [collabBump, hb, Bool.false_eq_true, if_false]
      simp only [sLookup, List.find?, hb] at ih ⊢
      exact ih

theorem sLookup_bump_other (st : List (Str × Nat × Int)) (n name : Str) (y : Int)
    (hne : name ≠ n) :
    sLookup (collabBump st n y) name = sLookup st name := by
  induction st with
  | nil =>
    have hb : (n == name) = false := by simp [Ne.symm hne]
    simp [collabBump, sLookup, List.find?, hb]
  | cons e rest ih =>
    obtain ⟨m, c, yy⟩ := e
    by_cases h : m = n
    · subst h
      have hb : (m == m) = true := by simp
      have hb2 : (m == name) = false := by simp [Ne.symm hne]
      simp [collabBump, sLookup, List.find?, hb, hb2]
    · have hb : (m == n) = false := by simp [h]
      simp only [collabBump, hb, Bool.false_eq_true, if_false]
      by_cases h2 : m = name
      · subst h2
        simp [sLookup, List.find?]
      · have hb2 : (m == name) = false := by simp [h2]
        simp only [sLookup, List.find?, hb2] at ih ⊢
        exact ih

theorem bump_keys (st : List (Str × Nat × Int)) (n : Str) (y : Int) :
    (collabBump st n y).map (·.1) =
      if st.any (fun e => e.1 == n) then st.map (·.1) else st.map (·.1) ++ [n] := by
  induction st with
  | nil => simp [collabBump]
  | cons e rest ih =>
    obtain ⟨m, c, yy⟩ := e
    by_cases h : m = n
    · subst h
      simp [collabBump, List.any_cons]
    · have hb : (m == n) = false := by simp [h]
      simp only [collabBump, hb, Bool.false_eq_true, if_false, List.map_cons,
        List.any_cons, Bool.false_or]
      rw [ih]
      by_cases h2 : rest.any (fun e => e.1 == n) = true
      · simp [h2]
      · simp only [Bool.not_eq_true] at h2
        simp [h2]

theorem eventsFold_nodup_keys (evs : List (Str × Int)) :
    ((evs.foldl collabStep []).map (·.1)).Nodup := by
  induction evs using List.reverseRecOn with
  | nil => simp
  | append_singleton l e ih =>
    rw [List.foldl_append, List.foldl_cons, List.foldl_nil]
    show ((collabBump (l.foldl collabStep []) e.1 e.2).map (·.1)).Nodup
    rw [bump_keys]
    by_cases h : (l.foldl collabStep []).any (fun x => x.1 == e.1) = true
    · simp only [h, if_true]
      exact ih
    · simp only [h, Bool.false_eq_true, if_false]
      simp only [Bool.not_eq_true, List.any_eq_false] at h
      refine List.Nodup.append ih (by simp) ?_
      intro x hx hy
      simp only [List.mem_singleton] at hy
      subst hy
      obtain ⟨entry, hentry, hkey⟩ := List.mem_map.mp hx
      have := h entry hentry
      rw [hkey] at this
      simp at this

theorem eventsFold_lookup (evs : List (Str × Int)) (name : Str) :
    sLookup (evs.foldl collabStep []) name =
      (if ((evs.filter (fun e => e.1 == name)).map (·.2)) = [] then none
       else some (((evs.filter (fun e => e.1 == name)).map (·.2)).length,
         ((evs.filter (fun e => e.1 == name)).map (·.2)).foldl max 0)) := by
  induction evs using List.reverseRecOn with
  | nil => simp [sLookup, List.find?]
  | append_singleton l e ih =>
    rw [List.foldl_append, List.foldl_cons, List.foldl_nil]
    show sLookup (collabBump (l.foldl collabStep []) e.1 e.2) name = _
    by_cases h : e.1 = name
    · have hb : (e.1 == name) = true := by simp [h]
      rw [← h, sLookup_bump_same, h, ih]
      rw [List.filter_append, List.map_append]
      simp only [List.filter_cons, hb, List.filter_nil, if_true, List.map_cons,
        List.map_nil]
      by_cases hocc : ((l.filter (fun x => x.1 == name)).map (·.2)) = []
      · simp [hocc]
      · simp only [hocc, Bool.false_eq_true, if_false]
        have hocc2 : ¬ (((l.filter (fun x => x.1 == name)).map (·.2)) ++ [e.2]) = [] := by
          simp
        simp only [hocc2, if_false]
        rw [List.foldl_append]
        simp [List.length_append]
    · have hb : (e.1 == name) = false := by simp [h]
      rw [sLookup_bump_other _ _ _ _ (fun hh => h hh.symm), ih]
      have hfe : List.filter (fun x => x.1 == name) [e] = [] := by simp [hb]
      rw [List.filter_append, hfe, List.append_nil]

theorem sLookup_of_mem {st : List (Str × Nat × Int)} (hnd : (st.map (·.1)).Nodup)
    {entry : Str × Nat × Int} (hmem : entry ∈ st) :
    sLookup st entry.1 = some entry.2 := by
  induction st with
  | nil => simp at hmem
  | cons e rest ih =>
    rcases List.mem_cons.mp hmem with rfl | hmem'
    · unfold sLookup
      rw [List.find?_cons_of_pos _ (by simp)]
      rfl
    · simp only [List.map_cons, List.nodup_cons] at hnd
      have hne : (e.1 == entry.1) = false := by
        cases hb : e.1 == entry.1 with
        | false => rfl
        | true =>
          exfalso
          apply hnd.1
          rw [beq_iff_eq] at hb
          rw [hb]
          exact List.mem_map.mpr ⟨entry, hmem', rfl⟩
      simp only [sLookup, List.find?, hne]
      exact ih hnd.2 hmem'

theorem mem_of_sLookup {st : List (Str × Nat × Int)} {name : Str} {v : Nat × Int}
    (h : sLookup st name = some v) : (name, v) ∈ st := by
  unfold sLookup at h
  rcases hf : st.find? (fun e => e.1 == name) with _ | entry
  · rw [hf] at h; simp at h
  · rw [hf] at h
    have hmem := List.mem_of_find?_eq_some hf
    have hkey := List.find?_some hf
    rw [beq_iff_eq] at hkey
    obtain ⟨k, v'⟩ := entry
    have hk : k = name := hkey
    have hv : v' = v := by simpa using h
    rw [← hk, ← hv]
    exact hmem

/-- A publication whose author list names the same unresolved author
twice (as a BibTeX field `"X and X"` would produce). -/
def c2DupAuthorPub : Publication :=
  { bib_id := "p1".data
    title := "T".data
    authors := [Author.mk "X".data none, Author.mk "X".data none]
    year := 2020
    venue := []
    category := "C".data
    entry_type := "misc".data
    abstract := none
    note := none
    pdf_url := none
    doi_url := none
    arxiv_url := none
    url := none
    video_url := none
    project_ids := [] }

/-- Counterexample to C2 as stated: on a single publication naming the
unresolved author `"X"` twice, the assembler produces a Collaborator with
`publication_count = 2`, while the number of distinct publications naming
that name is 1 — the code counts author occurrences, not distinct
publications. -/
theorem c2_counterexample :
    computeCollaborators [c2DupAuthorPub] = [Collaborator.mk "X".data 2 2020] ∧
    ([c2DupAuthorPub].filter (fun p =>
      p.authors.any (fun a => a.person_id == none && a.name == "X".data))).length = 1 := by
  constructor
  · decide
  · decide

/-- C2 (amended): the Assembler produces exactly one Collaborator per
distinct unresolved author name; its `publication_count` is the number of
unresolved author occurrences carrying that name (one per author entry, so
a publication naming it twice counts twice); its `last_year` is the years
of those occurrences folded through `max` starting from 0 (equal to the
maximum year whenever some year is nonnegative); the sequence is sorted by
`(-last_year, -publication_count, name)`; and `assembleCore` stores the
collaborators computed from the resolved publications in the `LabData`
container. -/
theorem c2_collaborator_aggregation (pubs : List Publication) :
    ((computeCollaborators pubs).map (fun c => c.name)).Nodup ∧
    (∀ name, (∃ c ∈ computeCollaborators pubs, c.name = name) ↔
      unresolvedYears pubs name ≠ []) ∧
    (∀ c ∈ computeCollaborators pubs,
      c.publication_count = (unresolvedYears pubs c.name).length ∧
      c.last_year = (unresolvedYears pubs c.name).foldl max 0) ∧
    (computeCollaborators pubs).Pairwise (fun a b => collabLe a b = true) ∧
    (∀ (people : List Person) (projects : List Project) (lab : Option (List (Str × Str))),
      ((assembleCore pubs people projects lab).1).collaborators =
        computeCollaborators (resolveAuthors pubs people FUZZY_THRESHOLD).1) := by
  have hstats : collabStats pubs = (collabEvents pubs).foldl collabStep [] :=
    collabStats_eq_events pubs
  have hperm : List.Perm (computeCollaborators pubs)
      ((collabStats pubs).map (fun s => Collaborator.mk s.1 s.2.1 s.2.2)) :=
    pySorted_perm collabLe _
  have hnd : ((collabStats pubs).map (·.1)).Nodup := by
    rw [hstats]; exact eventsFold_nodup_keys _
  have hlook : ∀ name, sLookup (collabStats pubs) name =
      (if unresolvedYears pubs name = [] then none
       else some ((unresolvedYears pubs name).length,
         (unresolvedYears pubs name).foldl max 0)) := by
    intro name
    rw [hstats]
    exact eventsFold_lookup _ name
  refine ⟨?_, ?_, ?_, ?_, ?_⟩
  · have hmapeq : ((collabStats pubs).map (fun s => Collaborator.mk s.1 s.2.1 s.2.2)).map
        (fun c => c.name) = (collabStats pubs).map (·.1) := by
      rw [List.map_map]; rfl
    have := (hperm.map (fun c => c.name)).nodup_iff
    rw [hmapeq] at this
    exact this.mpr hnd
  · intro name
    constructor
    · rintro ⟨c, hc, rfl⟩
      have hc' := hperm.mem_iff.mp hc
      obtain ⟨entry, hentry, hceq⟩ := List.mem_map.mp hc'
      have := sLookup_of_mem hnd hentry
      rw [hlook entry.1] at this
      by_cases hocc : unresolvedYears pubs entry.1 = []
      · rw [if_pos hocc] at this; exact absurd this (by simp)
      · rw [← hceq]; exact hocc
    · intro hocc
      have := hlook name
      rw [if_neg hocc] at this
      have hmem := mem_of_sLookup this
      refine ⟨Collaborator.mk name (unresolvedYears pubs name).length
        ((unresolvedYears pubs name).foldl max 0), ?_, rfl⟩
      exact hperm.mem_iff.mpr (List.mem_map.mpr ⟨_, hmem, rfl⟩)
  · intro c hc
    have hc' := hperm.mem_iff.mp hc
    obtain ⟨entry, hentry, hceq⟩ := List.mem_map.mp hc'
    have hl := sLookup_of_mem hnd hentry
    rw [hlook entry.1] at hl
    by_cases hocc : unresolvedYears pubs entry.1 = []
    · rw [if_pos hocc] at hl; exact absurd hl (by simp)
    · rw [if_neg hocc] at hl
      have hval : entry.2 = ((unresolvedYears pubs entry.1).length,
          (unresolvedYears pubs entry.1).foldl max 0) := by
        injection hl with h2
        exact h2.symm
      constructor
      · rw [← hceq]
        show entry.2.1 = (unresolvedYears pubs entry.1).length
        rw [hval]
      · rw [← hceq]
        show entry.2.2 = (unresolvedYears pubs entry.1).foldl max 0
        rw [hval]
  · exact pySorted_sorted collabLe (fun a b c => collabLe_trans) collabLe_total _
  · intro people projects lab
    rfl

/-- Witness for C2 (amended) on the duplicate-author publication: the
Collaborator `X` carries one count per occurrence. -/
theorem c2_collaborator_aggregation_witness :
    (Collaborator.mk "X".data 2 2020).publication_count =
        (unresolvedYears [c2DupAuthorPub] "X".data).length ∧
      (Collaborator.mk "X".data 2 2020).last_year =
        (unresolvedYears [c2DupAuthorPub] "X".data).foldl max 0 :=
  (c2_collaborator_aggregation [c2DupAuthorPub]).2.2.1 (Collaborator.mk "X".data 2 2020)
    (by decide)

/-! ## The best-candidate fold of `fuzzy_match` (claim C10) -/

/-- After the fold, the state is either the initial one or carries the
ratio and id of some index entry. -/
theorem fuzzyFold_state (norm : Str) :
    ∀ (l : List (Str × Str)) (b : (Nat × Nat) × Option Str),
      l.foldl (fun best kv =>
        let r := difflibRatio norm kv.1
        if rpLt best.1 r then (r, some kv.2) else best) b = b ∨
      ∃ x ∈ l,
        l.foldl (fun best kv =>
          let r := difflibRatio norm kv.1
          if rpLt best.1 r then (r, some kv.2) else best) b
          = (difflibRatio norm x.1, some x.2) := by
  intro l
  induction l with
  | nil => intro b; left; rfl
  | cons kv rest ih =>
    intro b
    rw [List.foldl_cons]
    cases hstep : (if rpLt b.1 (difflibRatio norm kv.1)
        then (difflibRatio norm kv.1, some kv.2) else b) with
    | mk r o =>
      rcases ih (r, o) with h | ⟨x, hx, h⟩
      · rw [h]
        by_cases hlt : rpLt b.1 (difflibRatio norm kv.1) = true
        · right
          refine ⟨kv, by simp, ?_⟩
          rw [if_pos hlt] at hstep
          exact hstep.symm
        · left
          rw [if_neg hlt] at hstep
          exact hstep.symm
      · right
        exact ⟨x, List.mem_cons_of_mem _ hx, h⟩

/-- Entries that never beat the current best leave the fold state
unchanged. -/
theorem fuzzyFold_noupdate (norm : Str) :
    ∀ (l : List (Str × Str)) (b : (Nat × Nat) × Option Str),
      (∀ x ∈ l, rpLt b.1 (difflibRatio norm x.1) = false) →
      l.foldl (fun best kv =>
        let r := difflibRatio norm kv.1
        if rpLt best.1 r then (r, some kv.2) else best) b = b := by
  intro l
  induction l with
  | nil => intro b _; rfl
  | cons kv rest ih =>
    intro b h
    rw [List.foldl_cons]
    have h1 : rpLt b.1 (difflibRatio norm kv.1) = false := h kv (by simp)
    simp only [h1, Bool.false_eq_true, if_false]
    exact ih b (fun x hx => h x (List.mem_cons_of_mem _ hx))

/-- C10: author resolution is deterministic — the embedding is a pure
function of the publications, roster and threshold — and the substantive
content is the fuzzy tie-break: when the maximum similarity ratio over the
index is attained first at position `i` (every earlier entry is strictly
below it, every entry is at most it), `fuzzy_match` returns entry `i`'s
person id: the strictly-greater update of the fold never lets a later
entry with an equal ratio replace the first maximum. -/
theorem c10_fuzzy_tie_break_first_entry_wins (name : Str) (index : List (Str × Str))
    (t : ℚ) (i : Nat) (hi : i < index.length)
    (hab : isAbbreviated (normalizeName name) = false)
    (hmax : ∀ j, (hj : j < index.length) →
      rpLt (difflibRatio (normalizeName name) (index.get ⟨i, hi⟩).1)
        (difflibRatio (normalizeName name) (index.get ⟨j, hj⟩).1) = false)
    (hfirst : ∀ j, (hj : j < index.length) → j < i →
      rpLt (difflibRatio (normalizeName name) (index.get ⟨j, hj⟩).1)
        (difflibRatio (normalizeName name) (index.get ⟨i, hi⟩).1) = true)
    (hpos : rpLt (0, 1) (difflibRatio (normalizeName name) (index.get ⟨i, hi⟩).1) = true)
    (ht : thLe t (difflibRatio (normalizeName name) (index.get ⟨i, hi⟩).1) = true) :
    fuzzyMatch name index t = some (index.get ⟨i, hi⟩).2 := by
  set norm := normalizeName name with hnorm
  set el := index.get ⟨i, hi⟩ with hel
  have hsplit : index = index.take i ++ el :: index.drop (i + 1) := by
    rw [hel]
    show index = index.take i ++ index[i] :: index.drop (i + 1)
    rw [List.getElem_cons_drop index i hi, List.take_append_drop]
  have hfold : fuzzyFold index norm = (difflibRatio norm el.1, some el.2) := by
    unfold fuzzyFold
    rw [hsplit, List.foldl_append, List.foldl_cons]
    -- the prefix keeps the best strictly below entry `i`'s ratio
    have hpre : ∀ b1, (b1 = ((0, 1), none) ∨
        ∃ x ∈ index.take i, b1 = (difflibRatio norm x.1, some x.2)) →
        rpLt b1.1 (difflibRatio norm el.1) = true := by
      rintro b1 (rfl | ⟨x, hx, rfl⟩)
      · exact hpos
      · obtain ⟨j, hj, hjx⟩ := List.getElem_of_mem hx
        have hjlen : j < i := by
          have := hj
          simp only [List.length_take] at this
          omega
        have hjlen2 : j < index.length := by omega
        have hxj : x = index.get ⟨j, hjlen2⟩ := by
          rw [← hjx]
          simp only [List.getElem_take]
          rfl
        rw [hxj]
        exact hfirst j hjlen2 hjlen
    rcases fuzzyFold_state norm (index.take i) ((0, 1), none) with h | ⟨x, hx, h⟩
    · rw [h]
      have hlt := hpre ((0, 1), none) (Or.inl rfl)
      simp only [hlt, if_true]
      apply fuzzyFold_noupdate
      intro x hx
      obtain ⟨j, hj, hjx⟩ := List.getElem_of_mem hx
      have hjlen : i + 1 + j < index.length := by
        have := hj
        simp only [List.length_drop] at this
        omega
      have hxj : x = index.get ⟨i + 1 + j, hjlen⟩ := by
        rw [← hjx]
        simp only [List.getElem_drop]
        rfl
      rw [hxj]
      exact hmax (i + 1 + j) hjlen
    · rw [h]
      have hlt := hpre _ (Or.inr ⟨x, hx, rfl⟩)
      simp only [hlt, if_true]
      apply fuzzyFold_noupdate
      intro x hx
      obtain ⟨j, hj, hjx⟩ := List.getElem_of_mem hx
      have hjlen : i + 1 + j < index.length := by
        have := hj
        simp only [List.length_drop] at this
        omega
      have hxj : x = index.get ⟨i + 1 + j, hjlen⟩ := by
        rw [← hjx]
        simp only [List.getElem_drop]
        rfl
      rw [hxj]
      exact hmax (i + 1 + j) hjlen
  unfold fuzzyMatch
  rw [← hnorm]
  simp [hab, hfold, ht]

/-- Witness for C10: with name `"abc"` and the index
`[("abd", p1), ("abe", p2)]` both entries tie at ratio 2/3, and the first
one wins. -/
theorem c10_fuzzy_tie_break_first_entry_wins_witness :
    fuzzyMatch "abc".data [("abd".data, "p1".data), ("abe".data, "p2".data)] 0
      = some "p1".data := by
  have h := c10_fuzzy_tie_break_first_entry_wins "abc".data
    [("abd".data, "p1".data), ("abe".data, "p2".data)] 0 0 (by decide)
    (by decide) (by decide) (by decide) (by decide) (by decide)
  exact h

/-! ## Invariant of `build_alias_index` (claim C5) -/

/-- The normalized forms a person contributes to the index: the canonical
name followed by the aliases, in indexing order. -/
def personForms (p : Person) : List Str :=
  normalizeName p.name :: p.aliases.map normalizeName

/-- All `(normalized form, person id)` indexing events, in processing
order. -/
def indexEvents (people : List Person) : List (Str × Str) :=
  people.foldr (fun p acc => (personForms p).map (fun f => (f, p.id)) ++ acc) []

/-- `f` is unambiguously mapped to `v` by the processed events. -/
def LookupSpec (done : List (Str × Str)) (f v : Str) : Prop :=
  (f, v) ∈ done ∧ ∀ w, (f, w) ∈ done → w = v

/-- `f` was processed with two distinct person ids. -/
def AmbSpec (done : List (Str × Str)) (f : Str) : Prop :=
  ∃ v w, (f, v) ∈ done ∧ (f, w) ∈ done ∧ v ≠ w

/-- The invariant tying the `(index, ambiguous)` state to the events
processed so far: the index maps exactly the forms all of whose processed
ids agree, and the ambiguous set holds exactly the forms processed with
two distinct ids. -/
def IndexInv (done : List (Str × Str)) (st : List (Str × Str) × List (Str × List Str)) :
    Prop :=
  (∀ f v, aLookup st.1 f = some v ↔ LookupSpec done f v) ∧
  (∀ f, ambHas st.2 f = true ↔ AmbSpec done f)

theorem aLookup_assign (idx : List (Str × Str)) (k v f : Str) :
    aLookup (aAssign idx k v) f = if f = k then some v else aLookup idx f := by
  induction idx with
  | nil =>
    by_cases h : f = k
    · subst h; simp [aAssign, aLookup, List.find?]
    · have hb : (k == f) = false := by simp [Ne.symm h]
      simp [aAssign, aLookup, List.find?, hb, h]
  | cons e rest ih =>
    obtain ⟨k0, v0⟩ := e
    by_cases h : k0 = k
    · subst h
      simp only [aAssign, beq_self_eq_true, if_true]
      by_cases h2 : f = k0
      · subst h2; simp [aLookup, List.find?]
      · have hb : (k0 == f) = false := by simp [Ne.symm h2]
        simp [aLookup, List.find?, hb, h2]
  
    · have hb : (k0 == k) = false := by simp [h]
      simp only [aAssign, hb, Bool.false_eq_true, if_false]
      by_cases h2 : f = k0
      · subst h2
        simp [aLookup, List.find?, h]
      · have hb2 : (k0 == f) = false := by simp [Ne.symm h2]
        simp only [aLookup, List.find?, hb2] at ih ⊢
        exact ih

theorem aLookup_erase (idx : List (Str × Str)) (k f : Str) :
    aLookup (aErase idx k) f = if f = k then none else aLookup idx f := by
  induction idx with
  | nil => simp [aErase, aLookup, List.find?]
  | cons e rest ih =>
    obtain ⟨k0, v0⟩ := e
    by_cases h : k0 = k
    · subst h
      simp only [aErase, List.filter_cons, beq_self_eq_true, Bool.not_true,
        Bool.false_eq_true, if_false]
      rw [show aErase rest k0 = rest.filter (fun kv => !(kv.1 == k0)) from rfl] at ih
      rw [ih]
      by_cases h2 : f = k0
      · simp [h2]
      · have hb : (k0 == f) = false := by simp [Ne.symm h2]
        simp [h2, aLookup, List.find?, hb]
    · have hb : (k0 == k) = false := by simp [h]
      simp only [aErase, List.filter_cons, hb, Bool.not_false, if_true]
      by_cases h2 : f = k0
      · subst h2
        simp [aLookup, List.find?, h]
      · have hb2 : (k0 == f) = false := by simp [Ne.symm h2]
        rw [show aErase rest k = rest.filter (fun kv => !(kv.1 == k)) from rfl] at ih
        simp only [aLookup, List.find?, hb2] at ih ⊢
        exact ih

theorem ambHas_seedAppend (amb : List (Str × List Str)) (k s v f : Str) :
    ambHas (ambSeedAppend amb k s v) f = ((f == k) || ambHas amb f) := by
  induction amb with
  | nil => simp [ambSeedAppend, ambHas, eq_comm]
  | cons e rest ih =>
    obtain ⟨k0, vs⟩ := e
    by_cases h : k0 = k
    · subst h
      simp only [ambSeedAppend, beq_self_eq_true, if_true]
      by_cases h2 : f = k0
      · simp [ambHas, h2]
      · have hb : (k0 == f) = false := by
          rw [beq_eq_false_iff_ne]
          exact fun hh => h2 hh.symm
        have hb2 : (f == k0) = false := by
          rw [beq_eq_false_iff_ne]
          exact h2
        simp [ambHas, List.any_cons, hb, hb2]
    · have hb : (k0 == k) = false := by simp [h]
      simp only [ambSeedAppend, hb, Bool.false_eq_true, if_false]
      simp only [ambHas, List.any_cons] at ih ⊢
      rw [ih]
      cases hfk0 : (k0 == f) <;> cases hfk : (f == k) <;> simp

theorem ambHas_append (amb : List (Str × List Str)) (k v f : Str) :
    ambHas (ambAppend amb k v) f = ambHas amb f := by
  induction amb with
  | nil => rfl
  | cons e rest ih =>
    obtain ⟨k0, vs⟩ := e
    by_cases h : k0 = k
    · subst h
      simp [ambAppend, ambHas]
    · have hb : (k0 == k) = false := by simp [h]
      simp only [ambAppend, hb, Bool.false_eq_true, if_false]
      simp only [ambHas, List.any_cons] at ih ⊢
      rw [ih]

theorem mem_append_pair {done : List (Str × Str)} {f0 pid f v : Str} :
    (f, v) ∈ done ++ [(f0, pid)] ↔ (f, v) ∈ done ∨ (f = f0 ∧ v = pid) := by
  rw [List.mem_append, List.mem_singleton, Prod.mk.injEq]

theorem lookupSpec_append_ne {done : List (Str × Str)} {f0 pid f v : Str}
    (hf : f ≠ f0) : LookupSpec (done ++ [(f0, pid)]) f v ↔ LookupSpec done f v := by
  unfold LookupSpec
  constructor
  · rintro ⟨hm, hu⟩
    rcases mem_append_pair.mp hm with hm | ⟨hf0, _⟩
    · exact ⟨hm, fun w hw => hu w (mem_append_pair.mpr (Or.inl hw))⟩
    · exact absurd hf0 hf
  · rintro ⟨hm, hu⟩
    refine ⟨mem_append_pair.mpr (Or.inl hm), ?_⟩
    intro w hw
    rcases mem_append_pair.mp hw with hw | ⟨hf0, _⟩
    · exact hu w hw
    · exact absurd hf0 hf

theorem ambSpec_append_ne {done : List (Str × Str)} {f0 pid f : Str}
    (hf : f ≠ f0) : AmbSpec (done ++ [(f0, pid)]) f ↔ AmbSpec done f := by
  unfold AmbSpec
  constructor
  · rintro ⟨a, b, hma, hmb, hab⟩
    rcases mem_append_pair.mp hma with hma | ⟨hf0, _⟩
    · rcases mem_append_pair.mp hmb with hmb | ⟨hf0, _⟩
      · exact ⟨a, b, hma, hmb, hab⟩
      · exact absurd hf0 hf
    · exact absurd hf0 hf
  · rintro ⟨a, b, hma, hmb, hab⟩
    exact ⟨a, b, mem_append_pair.mpr (Or.inl hma), mem_append_pair.mpr (Or.inl hmb), hab⟩

theorem lookupSpec_append_self {done : List (Str × Str)} {f0 pid v : Str} :
    LookupSpec (done ++ [(f0, pid)]) f0 v ↔
      (v = pid ∧ ∀ w, (f0, w) ∈ done → w = pid) := by
  unfold LookupSpec
  constructor
  · rintro ⟨_, hu⟩
    have hv : pid = v := hu pid (mem_append_pair.mpr (Or.inr ⟨rfl, rfl⟩))
    subst hv
    exact ⟨rfl, fun w hw => hu w (mem_append_pair.mpr (Or.inl hw))⟩
  · rintro ⟨rfl, hu⟩
    refine ⟨mem_append_pair.mpr (Or.inr ⟨rfl, rfl⟩), ?_⟩
    intro w hw
    rcases mem_append_pair.mp hw with hw | ⟨_, hw⟩
    · exact hu w hw
    · exact hw

theorem ambSpec_append_self {done : List (Str × Str)} {f0 pid : Str} :
    AmbSpec (done ++ [(f0, pid)]) f0 ↔
      (AmbSpec done f0 ∨ ∃ w, (f0, w) ∈ done ∧ w ≠ pid) := by
  unfold AmbSpec
  constructor
  · rintro ⟨a, b, hma, hmb, hab⟩
    rcases mem_append_pair.mp hma with hma2 | ⟨_, ha⟩
    · rcases mem_append_pair.mp hmb with hmb2 | ⟨_, hb⟩
      · exact Or.inl ⟨a, b, hma2, hmb2, hab⟩
      · exact Or.inr ⟨a, hma2, fun hh => hab (hh.trans hb.symm)⟩
    · rcases mem_append_pair.mp hmb with hmb2 | ⟨_, hb⟩
      · exact Or.inr ⟨b, hmb2, fun hh => hab (ha.trans hh.symm)⟩
      · exact absurd (ha.trans hb.symm) hab
  · rintro (⟨a, b, hma, hmb, hab⟩ | ⟨w, hmw, hw⟩)
    · exact ⟨a, b, mem_append_pair.mpr (Or.inl hma), mem_append_pair.mpr (Or.inl hmb), hab⟩
    · exact ⟨w, pid, mem_append_pair.mpr (Or.inl hmw),
        mem_append_pair.mpr (Or.inr ⟨rfl, rfl⟩), hw⟩

/-- Invariant preservation for a state whose lookups and ambiguity
membership take the four shapes the indexing branches produce. -/
theorem inv_of_assign {done : List (Str × Str)}
    {st : List (Str × Str) × List (Str × List Str)} {f0 pid : Str}
    (hL : ∀ f v, aLookup st.1 f = some v ↔ LookupSpec done f v)
    (hA : ∀ f, ambHas st.2 f = true ↔ AmbSpec done f)
    (hall : ∀ w, (f0, w) ∈ done → w = pid) :
    IndexInv (done ++ [(f0, pid)]) (aAssign st.1 f0 pid, st.2) := by
  constructor
  · intro f v
    show aLookup (aAssign st.1 f0 pid) f = some v ↔ _
    rw [aLookup_assign]
    by_cases hf : f = f0
    · subst hf
      rw [if_pos rfl, lookupSpec_append_self]
      constructor
      · intro hv
        have hveq : v = pid := by
          simp only [Option.some.injEq] at hv
          exact hv.symm
        exact ⟨hveq, hall⟩
      · rintro ⟨rfl, _⟩
        rfl
    · rw [if_neg hf, hL f v, lookupSpec_append_ne hf]
  · intro f
    show ambHas st.2 f = true ↔ _
    by_cases hf : f = f0
    · subst hf
      rw [hA f, ambSpec_append_self]
      constructor
      · intro hspec
        exact Or.inl hspec
      · rintro (hspec | ⟨w, hw, hwne⟩)
        · exact hspec
        · exact absurd (hall w hw) hwne
    · rw [hA f, ambSpec_append_ne hf]

/-- The alias indexing step preserves the invariant. -/
theorem stepAlias_inv {done : List (Str × Str)}
    {st : List (Str × Str) × List (Str × List Str)} {f0 pid : Str}
    (hinv : IndexInv done st) : IndexInv (done ++ [(f0, pid)]) (stepAlias st f0 pid) := by
  obtain ⟨hL, hA⟩ := hinv
  rcases h : aLookup st.1 f0 with _ | v0
  · by_cases ha : ambHas st.2 f0 = true
    · -- no mapping, already ambiguous: only the warning record grows
      have hstep : stepAlias st f0 pid = (st.1, ambAppend st.2 f0 pid) := by
        unfold stepAlias
        rw [h, ha]
        rfl
      rw [hstep]
      obtain ⟨a, b, hma, hmb, hab⟩ := (hA f0).mp ha
      constructor
      · intro f v
        show aLookup st.1 f = some v ↔ _
        by_cases hf : f = f0
        · subst hf
          rw [h]
          constructor
          · intro hv
            exact absurd hv (by simp)
          · intro hv
            obtain ⟨hveq, hu⟩ := lookupSpec_append_self.mp hv
            exact absurd ((hu a hma).trans (hu b hmb).symm) hab
        · rw [hL f v, lookupSpec_append_ne hf]
      · intro f
        show ambHas (ambAppend st.2 f0 pid) f = true ↔ _
        rw [ambHas_append]
        by_cases hf : f = f0
        · subst hf
          constructor
          · intro _
            exact ambSpec_append_self.mpr (Or.inl ⟨a, b, hma, hmb, hab⟩)
          · intro _
            exact ha
        · rw [hA f, ambSpec_append_ne hf]
    · -- fresh form: assign it
      have hstep : stepAlias st f0 pid = (aAssign st.1 f0 pid, st.2) := by
        unfold stepAlias
        rw [h]
        simp [ha]
      rw [hstep]
      have hno : ∀ w, (f0, w) ∉ done := by
        intro w hw
        have hspec : LookupSpec done f0 w := by
          refine ⟨hw, ?_⟩
          intro w2 hw2
          by_contra hne
          exact ha ((hA f0).mpr ⟨w2, w, hw2, hw, hne⟩)
        rw [← hL f0 w, h] at hspec
        exact absurd hspec (by simp)
      exact inv_of_assign hL hA (fun w hw => absurd hw (hno w))
  · obtain ⟨hm0, hu0⟩ := (hL f0 v0).mp h
    by_cases hv : v0 = pid
    · subst hv
      by_cases ha : ambHas st.2 f0 = true
      · -- impossible: a unique mapping cannot also be ambiguous
        obtain ⟨a, b, hma, hmb, hab⟩ := (hA f0).mp ha
        exact absurd ((hu0 a hma).trans (hu0 b hmb).symm) hab
      · have hstep : stepAlias st f0 v0 = (aAssign st.1 f0 v0, st.2) := by
          unfold stepAlias
          rw [h]
          simp [ha]
        rw [hstep]
        exact inv_of_assign hL hA hu0
    · -- conflicting id: the form becomes ambiguous
      have hstep : stepAlias st f0 pid = (aErase st.1 f0, ambSeedAppend st.2 f0 v0 pid) := by
        unfold stepAlias
        rw [h]
        simp [hv]
      rw [hstep]
      constructor
      · intro f v
        show aLookup (aErase st.1 f0) f = some v ↔ _
        rw [aLookup_erase]
        by_cases hf : f = f0
        · subst hf
          rw [if_pos rfl]
          constructor
          · intro hv2
            exact absurd hv2 (by simp)
          · intro hspec
            obtain ⟨hveq, hu⟩ := lookupSpec_append_self.mp hspec
            exact absurd (hu v0 hm0) hv
        · rw [if_neg hf, hL f v, lookupSpec_append_ne hf]
      · intro f
        show ambHas (ambSeedAppend st.2 f0 v0 pid) f = true ↔ _
        rw [ambHas_seedAppend]
        by_cases hf : f = f0
        · subst hf
          have hbt : (f == f) = true := by simp
          rw [hbt]
          simp only [Bool.true_or, true_iff]
          exact ambSpec_append_self.mpr (Or.inr ⟨v0, hm0, hv⟩)
        · have hbf : (f == f0) = false := by simp [hf]
          rw [hbf]
          simp only [Bool.false_or]
          rw [hA f, ambSpec_append_ne hf]

/-- The canonical-name step has the same effect on index lookups and on
ambiguity membership as the alias step (they differ only in the recorded
warning ids), so it preserves the invariant too. -/
theorem stepName_inv {done : List (Str × Str)}
    {st : List (Str × Str) × List (Str × List Str)} {f0 pid : Str}
    (hinv : IndexInv done st) : IndexInv (done ++ [(f0, pid)]) (stepName st f0 pid) := by
  have halias := @stepAlias_inv done st f0 pid hinv
  have hidx : (stepName st f0 pid).1 = (stepAlias st f0 pid).1 := by
    unfold stepName stepAlias
    rcases h : aLookup st.1 f0 with _ | v0
    · cases ha : ambHas st.2 f0 <;> simp [ha]
    · cases hne : (!(v0 == pid)) <;> cases ha : ambHas st.2 f0 <;> simp [hne, ha]
  have hamb : ∀ f, ambHas (stepName st f0 pid).2 f = ambHas (stepAlias st f0 pid).2 f := by
    intro f
    unfold stepName stepAlias
    rcases h : aLookup st.1 f0 with _ | v0
    · cases ha : ambHas st.2 f0 <;> simp [ha, ambHas_append]
    · cases hne : (!(v0 == pid)) <;> cases ha : ambHas st.2 f0 <;>
        simp [hne, ha, ambHas_append]
  obtain ⟨hL, hA⟩ := halias
  constructor
  · intro f v
    rw [hidx]
    exact hL f v
  · intro f
    rw [hamb f]
    exact hA f

theorem indexInv_nil : IndexInv [] ([], []) := by
  constructor
  · intro f v
    simp [aLookup, LookupSpec, List.find?]
  · intro f
    simp [ambHas, AmbSpec]

theorem aliasFold_inv {pid : Str} (als : List Str) {done : List (Str × Str)}
    {st : List (Str × Str) × List (Str × List Str)} (hinv : IndexInv done st) :
    IndexInv (done ++ als.map (fun al => (normalizeName al, pid)))
      (als.foldl (fun st2 al => stepAlias st2 (normalizeName al) pid) st) := by
  induction als generalizing done st with
  | nil => simpa using hinv
  | cons a rest ih =>
    simp only [List.foldl_cons, List.map_cons]
    have h2 := ih (@stepAlias_inv done st (normalizeName a) pid hinv)
    rw [List.append_assoc, List.singleton_append] at h2
    exact h2

theorem peopleFold_inv (people : List Person) :
    ∀ (done : List (Str × Str)) (st : List (Str × Str) × List (Str × List Str)),
      IndexInv done st →
      IndexInv (done ++ indexEvents people)
        (people.foldl
          (fun st person =>
            let st1 := stepName st (normalizeName person.name) person.id
            person.aliases.foldl
              (fun st2 al => stepAlias st2 (normalizeName al) person.id) st1)
          st) := by
  induction people with
  | nil =>
    intro done st hinv
    simpa [indexEvents] using hinv
  | cons p rest ih =>
    intro done st hinv
    simp only [List.foldl_cons]
    have h1 := @stepName_inv done st (normalizeName p.name) p.id hinv
    have h2 := @aliasFold_inv p.id p.aliases _ _ h1
    have h3 := ih _ _ h2
    simp only [indexEvents, personForms, List.foldr_cons, List.map_cons, List.map_map,
      List.cons_append, List.append_assoc, List.singleton_append, Function.comp] at h3 ⊢
    exact h3

theorem buildAliasIndex_inv (people : List Person) :
    ∀ f v, aLookup (buildAliasIndex people) f = some v ↔ LookupSpec (indexEvents people) f v := by
  have h := peopleFold_inv people [] ([], []) indexInv_nil
  rw [List.nil_append] at h
  exact h.1

theorem mem_indexEvents (people : List Person) (f v : Str) :
    (f, v) ∈ indexEvents people ↔
      ∃ p, p ∈ people ∧ p.id = v ∧ f ∈ personForms p := by
  induction people with
  | nil => simp [indexEvents]
  | cons p rest ih =>
    show (f, v) ∈ (personForms p).map (fun g => (g, p.id)) ++ indexEvents rest ↔ _
    rw [List.mem_append]
    constructor
    · intro hm
      rcases hm with hm | hm
      · obtain ⟨g, hg, heq⟩ := List.mem_map.mp hm
        obtain ⟨hf, hv⟩ := Prod.mk.injEq .. |>.mp heq
        exact ⟨p, List.mem_cons_self p rest, hv, hf ▸ hg⟩
      · obtain ⟨q, hq, hid, hforms⟩ := ih.mp hm
        exact ⟨q, List.mem_cons_of_mem p hq, hid, hforms⟩
    · rintro ⟨q, hq, hid, hforms⟩
      rcases List.mem_cons.mp hq with rfl | hq
      · exact Or.inl (List.mem_map.mpr ⟨f, hforms, by rw [hid]⟩)
      · exact Or.inr (ih.mpr ⟨q, hq, hid, hforms⟩)

/-- C5: `build_alias_index` collision policy. Writing `indexEvents people`
for the `(normalized form, person id)` pairs contributed by canonical
names and aliases in processing order: (1) a pair belongs to the events
exactly when the form is the person's normalized name or one of their
normalized aliases; (2) a form claimed by two distinct person ids is
absent from the returned index, no matter how many later events re-produce
it; (3) a form all of whose claiming ids agree maps to that id; (4) every
index entry is sound: its form maps to the unique id that claimed it. -/
theorem c5_build_alias_index_collision_policy (people : List Person) :
    (∀ f v, (f, v) ∈ indexEvents people ↔
      ∃ p, p ∈ people ∧ p.id = v ∧ f ∈ personForms p) ∧
    (∀ f v w, (f, v) ∈ indexEvents people → (f, w) ∈ indexEvents people → v ≠ w →
      aLookup (buildAliasIndex people) f = none) ∧
    (∀ f v, (f, v) ∈ indexEvents people →
      (∀ w, (f, w) ∈ indexEvents people → w = v) →
      aLookup (buildAliasIndex people) f = some v) ∧
    (∀ f v, aLookup (buildAliasIndex people) f = some v →
      (f, v) ∈ indexEvents people ∧ ∀ w, (f, w) ∈ indexEvents people → w = v) := by
  have h := buildAliasIndex_inv people
  refine ⟨mem_indexEvents people, ?_, ?_, ?_⟩
  · intro f v w hv hw hne
    cases hx : aLookup (buildAliasIndex people) f with
    | none => rfl
    | some u =>
      obtain ⟨_, hu⟩ := (h f u).mp hx
      exact absurd ((hu v hv).trans (hu w hw).symm) hne
  · intro f v hv hu
    exact (h f v).mpr ⟨hv, hu⟩
  · intro f v hx
    exact (h f v).mp hx

def c5P1 : Person :=
  ⟨"a".data, "Ann One".data, ["J. Smith".data], none, "current".data,
    none, none, none, none, none, none, none, none, 0, []⟩

def c5P2 : Person :=
  ⟨"b".data, "Bob Two".data, ["J. Smith".data], none, "current".data,
    none, none, none, none, none, none, none, none, 0, []⟩

set_option maxRecDepth 8000 in
theorem c5_build_alias_index_collision_policy_witness :
    aLookup (buildAliasIndex [c5P1, c5P2]) "j smith".data = none :=
  (c5_build_alias_index_collision_policy [c5P1, c5P2]).2.1
    "j smith".data "a".data "b".data (by decide) (by decide) (by decide)

/-! ## Idempotence of `compute_backlinks` (claim C1) -/

/-- The last element whose key is `k`: the object `{p.id: p for p in ...}`
maps `k` to. -/
def lastWith {β : Type} (key : β → Str) (k : Str) : List β → Option β
  | [] => none
  | p :: rest =>
    match lastWith key k rest with
    | some q => some q
    | none => if key p == k then some p else none

theorem lastWith_eq_none_of_not_any {β : Type} (key : β → Str) (k : Str) (l : List β)
    (h : l.any (fun q => key q == k) = false) : lastWith key k l = none := by
  induction l with
  | nil => rfl
  | cons p rest ih =>
    simp only [List.any_cons, Bool.or_eq_false_iff] at h
    show (match lastWith key k rest with
      | some q => some q
      | none => if key p == k then some p else none) = none
    rw [ih h.2]
    simp [h.1]

theorem lastWith_isSome_of_any {β : Type} (key : β → Str) (k : Str) (l : List β)
    (h : l.any (fun q => key q == k) = true) : ∃ q, lastWith key k l = some q := by
  induction l with
  | nil => exact absurd h (by simp)
  | cons p rest ih =>
    show ∃ q, (match lastWith key k rest with
      | some q => some q
      | none => if key p == k then some p else none) = some q
    cases hr : lastWith key k rest with
    | some q => exact ⟨q, rfl⟩
    | none =>
      simp only [List.any_cons, Bool.or_eq_true] at h
      rcases h with h | h
      · exact ⟨p, by simp [h]⟩
      · obtain ⟨q, hq⟩ := ih h
        rw [hq] at hr
        exact absurd hr (by simp)

theorem updateLast_eq_self {β : Type} (key : β → Str) (k : Str) (f : β → β) (l : List β)
    (h : ∀ q, lastWith key k l = some q → f q = q) : updateLast key k f l = l := by
  induction l with
  | nil => rfl
  | cons p rest ih =>
    show (if rest.any (fun q => key q == k) then p :: updateLast key k f rest
      else if key p == k then f p :: rest else p :: rest) = p :: rest
    cases ha : rest.any (fun q => key q == k) with
    | true =>
      simp only [if_true]
      congr 1
      apply ih
      intro q hq
      apply h
      show (match lastWith key k rest with
        | some q2 => some q2
        | none => if key p == k then some p else none) = some q
      rw [hq]
    | false =>
      simp only [Bool.false_eq_true, if_false]
      have hn := lastWith_eq_none_of_not_any key k rest ha
      cases hpk : (key p == k) with
      | true =>
        simp only [if_true]
        have hfp : f p = p := by
          apply h
          show (match lastWith key k rest with
            | some q2 => some q2
            | none => if key p == k then some p else none) = some p
          rw [hn, hpk]
          simp
        rw [hfp]
      | false =>
        simp only [Bool.false_eq_true, if_false]

theorem updateLast_preserves_any {β : Type} (key : β → Str) (k k2 : Str) (f : β → β)
    (hkey : ∀ p, key (f p) = key p) (l : List β) :
    (updateLast key k2 f l).any (fun q => key q == k) = l.any (fun q => key q == k) := by
  induction l with
  | nil => rfl
  | cons p rest ih =>
    show (if rest.any (fun q => key q == k2) then p :: updateLast key k2 f rest
      else if key p == k2 then f p :: rest else p :: rest).any (fun q => key q == k)
      = (p :: rest).any (fun q => key q == k)
    cases ha : rest.any (fun q => key q == k2) with
    | true => simp only [if_true, List.any_cons, ih]
    | false =>
      simp only [Bool.false_eq_true, if_false]
      cases hpk : (key p == k2) with
      | true => simp only [if_true, List.any_cons, hkey]
      | false => simp only [Bool.false_eq_true, if_false]

theorem lastWith_updateLast_self {β : Type} (key : β → Str) (k : Str) (f : β → β)
    (hkey : ∀ p, key (f p) = key p) (l : List β) :
    lastWith key k (updateLast key k f l) = (lastWith key k l).map f := by
  induction l with
  | nil => rfl
  | cons p rest ih =>
    have hR : lastWith key k (p :: rest)
        = (match lastWith key k rest with
          | some q => some q
          | none => if key p == k then some p else none) := rfl
    show lastWith key k (if rest.any (fun q => key q == k) then p :: updateLast key k f rest
      else if key p == k then f p :: rest else p :: rest)
      = Option.map f (lastWith key k (p :: rest))
    cases ha : rest.any (fun q => key q == k) with
    | true =>
      simp only [if_true]
      obtain ⟨q, hq⟩ := lastWith_isSome_of_any key k rest ha
      have hL : lastWith key k (p :: updateLast key k f rest) = some (f q) := by
        have hstep : lastWith key k (p :: updateLast key k f rest)
            = (match lastWith key k (updateLast key k f rest) with
              | some q2 => some q2
              | none => if key p == k then some p else none) := rfl
        rw [hstep, ih, hq]
        rfl
      rw [hL, hR, hq]
      rfl
    | false =>
      simp only [Bool.false_eq_true, if_false]
      have hn := lastWith_eq_none_of_not_any key k rest ha
      rw [hR, hn]
      cases hpk : (key p == k) with
      | true =>
        simp only [if_true]
        have hL : lastWith key k (f p :: rest)
            = (match lastWith key k rest with
              | some q2 => some q2
              | none => if key (f p) == k then some (f p) else none) := rfl
        rw [hL, hn, hkey p, hpk]
        simp
      | false =>
        simp only [Bool.false_eq_true, if_false]
        have hL : lastWith key k (p :: rest)
            = (match lastWith key k rest with
              | some q2 => some q2
              | none => if key p == k then some p else none) := rfl
        rw [hL, hn, hpk]
        simp

theorem lastWith_updateLast_ne {β : Type} (key : β → Str) (k k2 : Str) (f : β → β)
    (hkey : ∀ p, key (f p) = key p) (hne : k ≠ k2) (l : List β) :
    lastWith key k (updateLast key k2 f l) = lastWith key k l := by
  induction l with
  | nil => rfl
  | cons p rest ih =>
    have hR : lastWith key k (p :: rest)
        = (match lastWith key k rest with
          | some q => some q
          | none => if key p == k then some p else none) := rfl
    show lastWith key k (if rest.any (fun q => key q == k2) then p :: updateLast key k2 f rest
      else if key p == k2 then f p :: rest else p :: rest)
      = lastWith key k (p :: rest)
    cases ha : rest.any (fun q => key q == k2) with
    | true =>
      simp only [if_true]
      have hL : lastWith key k (p :: updateLast key k2 f rest)
          = (match lastWith key k (updateLast key k2 f rest) with
            | some q2 => some q2
            | none => if key p == k then some p else none) := rfl
      rw [hL, ih, hR]
    | false =>
      simp only [Bool.false_eq_true, if_false]
      cases hpk : (key p == k2) with
      | true =>
        simp only [if_true]
        have hL : lastWith key k (f p :: rest)
            = (match lastWith key k rest with
              | some q2 => some q2
              | none => if key (f p) == k then some (f p) else none) := rfl
        have hpne : (key p == k) = false := by
          rw [beq_eq_false_iff_ne]
          intro hh
          exact hne (hh.symm.trans (beq_iff_eq.mp hpk))
        rw [hL, hR, hkey p, hpne]
        cases lastWith key k rest with
        | some q => rfl
        | none => simp
      | false =>
        simp only [Bool.false_eq_true, if_false]

theorem lastWith_map {β : Type} (key : β → Str) (k : Str) (g : β → β)
    (hkey : ∀ p, key (g p) = key p) (l : List β) :
    lastWith key k (l.map g) = (lastWith key k l).map g := by
  induction l with
  | nil => rfl
  | cons p rest ih =>
    have hL : lastWith key k (g p :: rest.map g)
        = (match lastWith key k (rest.map g) with
          | some q => some q
          | none => if key (g p) == k then some (g p) else none) := rfl
    have hR : lastWith key k (p :: rest)
        = (match lastWith key k rest with
          | some q => some q
          | none => if key p == k then some p else none) := rfl
    show lastWith key k (g p :: rest.map g) = Option.map g (lastWith key k (p :: rest))
    rw [hL, ih, hR, hkey p]
    cases lastWith key k rest with
    | some q => rfl
    | none =>
      cases hpk : (key p == k) with
      | true => simp
      | false => simp

theorem mem_updateLast {β : Type} (key : β → Str) (k : Str) (f : β → β) {q : β}
    {l : List β} (h : q ∈ updateLast key k f l) : q ∈ l ∨ ∃ p, p ∈ l ∧ q = f p := by
  induction l with
  | nil => exact absurd h (by simp [updateLast])
  | cons p rest ih =>
    rw [show updateLast key k f (p :: rest)
      = (if rest.any (fun q => key q == k) then p :: updateLast key k f rest
        else if key p == k then f p :: rest else p :: rest) from rfl] at h
    cases ha : rest.any (fun q => key q == k) with
    | true =>
      rw [ha, if_pos rfl] at h
      rcases List.mem_cons.mp h with rfl | h
      · exact Or.inl (List.mem_cons_self q rest)
      · rcases ih h with h | ⟨p2, hp2, hq⟩
        · exact Or.inl (List.mem_cons_of_mem p h)
        · exact Or.inr ⟨p2, List.mem_cons_of_mem p hp2, hq⟩
    | false =>
      rw [ha] at h
      simp only [Bool.false_eq_true, if_false] at h
      cases hpk : (key p == k) with
      | true =>
        rw [hpk, if_pos rfl] at h
        rcases List.mem_cons.mp h with rfl | h
        · exact Or.inr ⟨p, List.mem_cons_self p rest, rfl⟩
        · exact Or.inl (List.mem_cons_of_mem p h)
      | false =>
        rw [hpk] at h
        simp only [Bool.false_eq_true, if_false] at h
        exact Or.inl h

/-- One flattened back-link operation `(target id, bib id)`: append the
bib id to the last object with the target id, if any. -/
def applyAdd {β : Type} (key : β → Str) (add : Str → β → β) (ps : List β)
    (op : Str × Str) : List β :=
  updateLast key op.1 (add op.2) ps

/-- The operation is established: the object its target id resolves to
already records the bib id. -/
def EstOp {β : Type} (key : β → Str) (ids : β → List Str) (op : Str × Str)
    (ps : List β) : Prop :=
  ∀ q, lastWith key op.1 ps = some q → op.2 ∈ ids q

theorem estOp_applyAdd_self {β : Type} (key : β → Str) (ids : β → List Str)
    (add : Str → β → β) (hkey : ∀ b p, key (add b p) = key p)
    (hself : ∀ b p, b ∈ ids (add b p)) (op : Str × Str) (ps : List β) :
    EstOp key ids op (applyAdd key add ps op) := by
  intro q hq
  rw [show applyAdd key add ps op = updateLast key op.1 (add op.2) ps from rfl,
    lastWith_updateLast_self key op.1 (add op.2) (hkey op.2) ps] at hq
  cases hl : lastWith key op.1 ps with
  | none =>
    rw [hl] at hq
    exact absurd hq (by simp)
  | some p0 =>
    rw [hl] at hq
    have hq2 : add op.2 p0 = q := by simpa using hq
    rw [← hq2]
    exact hself op.2 p0

theorem estOp_applyAdd_mono {β : Type} (key : β → Str) (ids : β → List Str)
    (add : Str → β → β) (hkey : ∀ b p, key (add b p) = key p)
    (hmono : ∀ x b p, x ∈ ids p → x ∈ ids (add b p)) (op op2 : Str × Str)
    (ps : List β) (h : EstOp key ids op ps) :
    EstOp key ids op (applyAdd key add ps op2) := by
  intro q hq
  rw [show applyAdd key add ps op2 = updateLast key op2.1 (add op2.2) ps from rfl] at hq
  by_cases hk : op.1 = op2.1
  · rw [← hk, lastWith_updateLast_self key op.1 (add op2.2) (hkey op2.2) ps] at hq
    cases hl : lastWith key op.1 ps with
    | none =>
      rw [hl] at hq
      exact absurd hq (by simp)
    | some p0 =>
      rw [hl] at hq
      have hq2 : add op2.2 p0 = q := by simpa using hq
      rw [← hq2]
      exact hmono op.2 op2.2 p0 (h p0 hl)
  · rw [lastWith_updateLast_ne key op.1 op2.1 (add op2.2) (hkey op2.2) hk ps] at hq
    exact h q hq

theorem estOp_foldl {β : Type} (key : β → Str) (ids : β → List Str)
    (add : Str → β → β) (hkey : ∀ b p, key (add b p) = key p)
    (hmono : ∀ x b p, x ∈ ids p → x ∈ ids (add b p)) (ops : List (Str × Str))
    (op : Str × Str) :
    ∀ ps, EstOp key ids op ps → EstOp key ids op (ops.foldl (applyAdd key add) ps) := by
  induction ops with
  | nil => exact fun ps h => h
  | cons o rest ih =>
    intro ps h
    simp only [List.foldl_cons]
    exact ih _ (estOp_applyAdd_mono key ids add hkey hmono op o ps h)

theorem estOp_all_foldl {β : Type} (key : β → Str) (ids : β → List Str)
    (add : Str → β → β) (hkey : ∀ b p, key (add b p) = key p)
    (hself : ∀ b p, b ∈ ids (add b p))
    (hmono : ∀ x b p, x ∈ ids p → x ∈ ids (add b p)) (ops : List (Str × Str)) :
    ∀ ps, ∀ op ∈ ops, EstOp key ids op (ops.foldl (applyAdd key add) ps) := by
  induction ops with
  | nil =>
    intro ps op hop
    exact absurd hop (List.not_mem_nil op)
  | cons o rest ih =>
    intro ps op hop
    simp only [List.foldl_cons]
    rcases List.mem_cons.mp hop with rfl | hop
    · exact estOp_foldl key ids add hkey hmono rest op _
        (estOp_applyAdd_self key ids add hkey hself op ps)
    · exact ih _ op hop

theorem applyAdd_of_est {β : Type} (key : β → Str) (ids : β → List Str)
    (add : Str → β → β) (hfix : ∀ b p, b ∈ ids p → add b p = p) (op : Str × Str)
    (ps : List β) (h : EstOp key ids op ps) : applyAdd key add ps op = ps := by
  apply updateLast_eq_self
  intro q hq
  exact hfix op.2 q (h q hq)

theorem foldl_applyAdd_of_all_est {β : Type} (key : β → Str) (ids : β → List Str)
    (add : Str → β → β) (hfix : ∀ b p, b ∈ ids p → add b p = p) (ops : List (Str × Str))
    (ps : List β) (h : ∀ op ∈ ops, EstOp key ids op ps) :
    ops.foldl (applyAdd key add) ps = ps := by
  induction ops with
  | nil => rfl
  | cons o rest ih =>
    have h0 : applyAdd key add ps o = ps :=
      applyAdd_of_est key ids add hfix o ps (h o (List.mem_cons_self o rest))
    simp only [List.foldl_cons, h0]
    exact ih (fun op hop => h op (List.mem_cons_of_mem o hop))

theorem estOp_map {β : Type} (key : β → Str) (ids : β → List Str) (g : β → β)
    (hkeyg : ∀ p, key (g p) = key p) (hidsg : ∀ p, ids (g p) = ids p)
    (op : Str × Str) (ps : List β) (h : EstOp key ids op ps) :
    EstOp key ids op (ps.map g) := by
  intro q hq
  rw [lastWith_map key op.1 g hkeyg ps] at hq
  cases hl : lastWith key op.1 ps with
  | none =>
    rw [hl] at hq
    exact absurd hq (by simp)
  | some p0 =>
    rw [hl] at hq
    have hq2 : g p0 = q := by simpa using hq
    rw [← hq2, hidsg p0]
    exact h p0 hl

theorem addPubIdPerson_key (b : Str) (p : Person) : (addPubIdPerson b p).id = p.id := by
  unfold addPubIdPerson
  split <;> rfl

theorem addPubIdPerson_self (b : Str) (p : Person) :
    b ∈ (addPubIdPerson b p).publication_ids := by
  unfold addPubIdPerson
  split
  · assumption
  · simp

theorem addPubIdPerson_mono (x b : Str) (p : Person) (h : x ∈ p.publication_ids) :
    x ∈ (addPubIdPerson b p).publication_ids := by
  unfold addPubIdPerson
  split
  · exact h
  · simp [h]

theorem addPubIdPerson_fix (b : Str) (p : Person) (h : b ∈ p.publication_ids) :
    addPubIdPerson b p = p := by
  unfold addPubIdPerson
  split
  · rfl
  · exact absurd h (by assumption)

theorem addPubIdPerson_nodup (b : Str) (p : Person) (h : p.publication_ids.Nodup) :
    (addPubIdPerson b p).publication_ids.Nodup := by
  unfold addPubIdPerson
  split
  · exact h
  · simp only [List.nodup_append, List.nodup_cons, List.nodup_nil]
    refine ⟨h, by simp, ?_⟩
    intro x hx
    simp only [List.mem_singleton]
    intro hxb
    subst hxb
    exact absurd hx (by assumption)

theorem addPubIdProject_key (b : Str) (p : Project) : (addPubIdProject b p).id = p.id := by
  unfold addPubIdProject
  split <;> rfl

theorem addPubIdProject_self (b : Str) (p : Project) :
    b ∈ (addPubIdProject b p).publication_ids := by
  unfold addPubIdProject
  split
  · assumption
  · simp

theorem addPubIdProject_mono (x b : Str) (p : Project) (h : x ∈ p.publication_ids) :
    x ∈ (addPubIdProject b p).publication_ids := by
  unfold addPubIdProject
  split
  · exact h
  · simp [h]

theorem addPubIdProject_fix (b : Str) (p : Project) (h : b ∈ p.publication_ids) :
    addPubIdProject b p = p := by
  unfold addPubIdProject
  split
  · rfl
  · exact absurd h (by assumption)

/-- The flattened people back-link operation of one author, if any. -/
def authorOp (bib : Str) (a : Author) : Option (Str × Str) :=
  match a.person_id with
  | some pid => if pid.isEmpty then none else some (pid, bib)
  | none => none

def pubPeopleOps (pub : Publication) : List (Str × Str) :=
  pub.authors.filterMap (authorOp pub.bib_id)

def pubProjectOps (pub : Publication) : List (Str × Str) :=
  pub.project_ids.map (fun pid => (pid, pub.bib_id))

def peopleOps (pubs : List Publication) : List (Str × Str) :=
  pubs.foldr (fun pub acc => pubPeopleOps pub ++ acc) []

def projectOps (pubs : List Publication) : List (Str × Str) :=
  pubs.foldr (fun pub acc => pubProjectOps pub ++ acc) []

theorem foldl_author_ops (bib : Str) (l : List Author) :
    ∀ ps : List Person,
      l.foldl (fun ps a =>
        match a.person_id with
        | some pid =>
          if pid.isEmpty then ps
          else updateLast Person.id pid (addPubIdPerson bib) ps
        | none => ps) ps
      = (l.filterMap (authorOp bib)).foldl (applyAdd Person.id addPubIdPerson) ps := by
  induction l with
  | nil =>
    intro ps
    rfl
  | cons a rest ih =>
    intro ps
    simp only [List.foldl_cons, List.filterMap_cons]
    cases hp : a.person_id with
    | none =>
      simp only [authorOp, hp]
      exact ih ps
    | some pid =>
      cases he : pid.isEmpty with
      | true =>
        simp only [authorOp, hp, he, if_true]
        exact ih ps
      | false =>
        simp only [authorOp, hp, he, Bool.false_eq_true, if_false, List.foldl_cons]
        exact ih _

theorem backlinkPubPeople_eq_ops (ps : List Person) (pub : Publication) :
    backlinkPubPeople ps pub
      = (pubPeopleOps pub).foldl (applyAdd Person.id addPubIdPerson) ps :=
  foldl_author_ops pub.bib_id pub.authors ps

theorem backlinkPubProjects_eq_ops (ps : List Project) (pub : Publication) :
    backlinkPubProjects ps pub
      = (pubProjectOps pub).foldl (applyAdd Project.id addPubIdProject) ps := by
  show pub.project_ids.foldl _ ps = (pub.project_ids.map _).foldl _ ps
  rw [List.foldl_map]
  rfl

theorem foldl_people_eq_ops (pubs : List Publication) :
    ∀ ps : List Person,
      pubs.foldl backlinkPubPeople ps
        = (peopleOps pubs).foldl (applyAdd Person.id addPubIdPerson) ps := by
  induction pubs with
  | nil =>
    intro ps
    rfl
  | cons pub rest ih =>
    intro ps
    simp only [List.foldl_cons]
    rw [backlinkPubPeople_eq_ops,
      show peopleOps (pub :: rest) = pubPeopleOps pub ++ peopleOps rest from rfl,
      List.foldl_append]
    exact ih _

theorem foldl_projects_eq_ops (pubs : List Publication) :
    ∀ ps : List Project,
      pubs.foldl backlinkPubProjects ps
        = (projectOps pubs).foldl (applyAdd Project.id addPubIdProject) ps := by
  induction pubs with
  | nil =>
    intro ps
    rfl
  | cons pub rest ih =>
    intro ps
    simp only [List.foldl_cons]
    rw [backlinkPubProjects_eq_ops,
      show projectOps (pub :: rest) = pubProjectOps pub ++ projectOps rest from rfl,
      List.foldl_append]
    exact ih _

theorem backlinks_fold_split (pubs : List Publication) :
    ∀ (ps : List Person) (prs : List Project),
      pubs.foldl
        (fun (st : List Person × List Project) pub =>
          (backlinkPubPeople st.1 pub, backlinkPubProjects st.2 pub))
        (ps, prs)
      = (pubs.foldl backlinkPubPeople ps, pubs.foldl backlinkPubProjects prs) := by
  induction pubs with
  | nil =>
    intro ps prs
    rfl
  | cons pub rest ih =>
    intro ps prs
    simp only [List.foldl_cons]
    exact ih _ _

theorem computeBacklinks_eq (data : LabData) :
    computeBacklinks data =
      { data with
        people := (data.publications.foldl backlinkPubPeople data.people).map
          (fun p => { p with publication_count := p.publication_ids.length }),
        projects := (data.publications.foldl backlinkPubProjects data.projects).map
          (fun proj => { proj with
            people_ids := projectPeopleIds data.publications proj.publication_ids }) } := by
  unfold computeBacklinks
  simp only [backlinks_fold_split]

theorem applyAdd_nodup_inv {β : Type} (key : β → Str) (ids : β → List Str)
    (add : Str → β → β) (hnd : ∀ b p, (ids p).Nodup → (ids (add b p)).Nodup)
    (op : Str × Str) (ps : List β) (h : ∀ p ∈ ps, (ids p).Nodup) :
    ∀ q ∈ applyAdd key add ps op, (ids q).Nodup := by
  intro q hq
  rcases mem_updateLast key op.1 (add op.2) hq with hq | ⟨p0, hp0, rfl⟩
  · exact h q hq
  · exact hnd op.2 p0 (h p0 hp0)

theorem foldl_applyAdd_nodup {β : Type} (key : β → Str) (ids : β → List Str)
    (add : Str → β → β) (hnd : ∀ b p, (ids p).Nodup → (ids (add b p)).Nodup)
    (ops : List (Str × Str)) :
    ∀ ps : List β, (∀ p ∈ ps, (ids p).Nodup) →
      ∀ q ∈ ops.foldl (applyAdd key add) ps, (ids q).Nodup := by
  induction ops with
  | nil => exact fun ps h => h
  | cons o rest ih =>
    intro ps h
    simp only [List.foldl_cons]
    exact ih _ (applyAdd_nodup_inv key ids add hnd o ps h)

/-- C1: `compute_backlinks` is idempotent on the whole data set — a second
call reproduces exactly the `Person.publication_ids` lists,
`Person.publication_count` values, and `Project.publication_ids` and
`Project.people_ids` values of the first — and, whenever every person
starts with a duplicate-free `publication_ids` list (as freshly loaded
people with empty lists do), every person's `publication_ids` after the
pass has no duplicate bib ids. -/
theorem c1_compute_backlinks_idempotent (data : LabData) :
    computeBacklinks (computeBacklinks data) = computeBacklinks data ∧
    ((∀ p ∈ data.people, p.publication_ids.Nodup) →
      ∀ p ∈ (computeBacklinks data).people, p.publication_ids.Nodup) := by
  constructor
  · rw [computeBacklinks_eq data, computeBacklinks_eq]
    have hpeople :
        data.publications.foldl backlinkPubPeople
          ((data.publications.foldl backlinkPubPeople data.people).map
            (fun p => { p with publication_count := p.publication_ids.length }))
        = (data.publications.foldl backlinkPubPeople data.people).map
            (fun p => { p with publication_count := p.publication_ids.length }) := by
      rw [foldl_people_eq_ops]
      apply foldl_applyAdd_of_all_est Person.id Person.publication_ids addPubIdPerson
        addPubIdPerson_fix
      intro op hop
      apply estOp_map Person.id Person.publication_ids
        (fun p => { p with publication_count := p.publication_ids.length })
        (fun p => rfl) (fun p => rfl)
      rw [foldl_people_eq_ops]
      exact estOp_all_foldl Person.id Person.publication_ids addPubIdPerson
        addPubIdPerson_key addPubIdPerson_self addPubIdPerson_mono
        (peopleOps data.publications) data.people op hop
    have hprojects :
        data.publications.foldl backlinkPubProjects
          ((data.publications.foldl backlinkPubProjects data.projects).map
            (fun proj => { proj with
              people_ids := projectPeopleIds data.publications proj.publication_ids }))
        = (data.publications.foldl backlinkPubProjects data.projects).map
            (fun proj => { proj with
              people_ids := projectPeopleIds data.publications proj.publication_ids }) := by
      rw [foldl_projects_eq_ops]
      apply foldl_applyAdd_of_all_est Project.id Project.publication_ids addPubIdProject
        addPubIdProject_fix
      intro op hop
      apply estOp_map Project.id Project.publication_ids
        (fun proj => { proj with
          people_ids := projectPeopleIds data.publications proj.publication_ids })
        (fun p => rfl) (fun p => rfl)
      rw [foldl_projects_eq_ops]
      exact estOp_all_foldl Project.id Project.publication_ids addPubIdProject
        addPubIdProject_key addPubIdProject_self addPubIdProject_mono
        (projectOps data.publications) data.projects op hop
    show ({ data with
        people := _, projects := _ } : LabData) = _
    simp only [hpeople, hprojects, List.map_map]
    rfl
  · intro h p hp
    rw [computeBacklinks_eq data] at hp
    simp only [List.mem_map] at hp
    obtain ⟨p0, hp0, rfl⟩ := hp
    show p0.publication_ids.Nodup
    rw [foldl_people_eq_ops] at hp0
    exact foldl_applyAdd_nodup Person.id Person.publication_ids addPubIdPerson
      addPubIdPerson_nodup (peopleOps data.publications) data.people h p0 hp0

def c1Pub : Publication :=
  ⟨"smith2024".data, "Test".data, [⟨"J. Smith".data, some "jsmith".data⟩],
    2024, "Venue".data, "Cat".data, "article".data, none, none, none, none,
    none, none, none, ["proj1".data]⟩

def c1Data : LabData :=
  ⟨[c1Pub, c1Pub],
    [⟨"jsmith".data, "John Smith".data, [], none, "current".data,
      none, none, none, none, none, none, none, none, 0, []⟩],
    [⟨"proj1".data, "Project One".data, none, none, "active".data, [], []⟩],
    [], none⟩

set_option maxRecDepth 8000 in
theorem c1_compute_backlinks_idempotent_witness :
    (∀ p ∈ c1Data.people, p.publication_ids.Nodup) ∧
    (∀ p ∈ (computeBacklinks c1Data).people, p.publication_ids.Nodup) :=
  ⟨by decide, (c1_compute_backlinks_idempotent c1Data).2 (by decide)⟩

end PrlBib
